import Mathlib

/-!
A verification development for the JDON parser/serializer (`src/parser.js`).

Texts are modelled as `List Char`.  JavaScript numbers are modelled as exact
decimal values (`JNum.fin m e` denotes `m * 10 ^ e`), with `NaN`, the two
infinities and negative zero as distinguished variants, mirroring the cases the
code itself distinguishes (`Number.isNaN`, `=== Infinity`, `Object.is(-0)`).

The mutually recursive parser and serializer recurse structurally on a fuel
counter that bounds the *call depth* (inner loops over split segments are
structural on the segment lists and consume no fuel), so every definition
reduces by `rfl`/`decide`; `none` marks fuel exhaustion, an artifact of the
embedding that never occurs at the fuel values used in the theorems below.
-/

namespace JDON

/-- Whitespace stripped by JavaScript `String.prototype.trim`: the ECMAScript
    WhiteSpace set (TAB, VT, FF, SP, NBSP, ZWNBSP and the Unicode
    space-separator category Zs) together with the LineTerminator set
    (LF, CR, LS, PS). -/
def isWSb (c : Char) : Bool :=
  c.toNat = 0x20 || c.toNat = 0xA || c.toNat = 0x9 || c.toNat = 0xD ||
  c.toNat = 0xB || c.toNat = 0xC || c.toNat = 0xA0 || c.toNat = 0x1680 ||
  (0x2000 ≤ c.toNat && c.toNat ≤ 0x200A) || c.toNat = 0x2028 ||
  c.toNat = 0x2029 || c.toNat = 0x202F || c.toNat = 0x205F ||
  c.toNat = 0x3000 || c.toNat = 0xFEFF

/-- Leading whitespace removed, as in `String.prototype.trim`. -/
def trimL (s : List Char) : List Char := s.dropWhile isWSb

/-- Trailing whitespace removed. -/
def trimR (s : List Char) : List Char := (s.reverse.dropWhile isWSb).reverse

/-- JavaScript `s.trim()`. -/
def trim (s : List Char) : List Char := trimR (trimL s)

/-- JavaScript `s.includes(c)` for a single-character needle. -/
def hasCh (s : List Char) (c : Char) : Bool :=
  match s with
  | [] => false
  | x :: r => if x = c then true else hasCh r c

/-- JavaScript `s.startsWith(c)` for a single-character pattern. -/
def headIs (s : List Char) (c : Char) : Bool :=
  match s with
  | [] => false
  | x :: _ => x = c

/-- JavaScript `s.endsWith(c)` for a single-character pattern. -/
def lastIs (s : List Char) (c : Char) : Bool := headIs s.reverse c

/-- JavaScript `parts.join(sep)` for a single-character separator. -/
def joinSep (sep : Char) : List (List Char) → List Char
  | [] => []
  | [x] => x
  | x :: y :: r => x ++ sep :: joinSep sep (y :: r)

/-- JavaScript `s.replace(/pat/g, rep)` for a single-character pattern. -/
def replaceChar (pat : Char) (rep : List Char) : List Char → List Char
  | [] => []
  | c :: r => (if c = pat then rep else [c]) ++ replaceChar pat rep r

/-- The decimal digit character for `d < 10`. -/
def digitChar (d : Nat) : Char := Char.ofNat (48 + d)

/-- Decimal digit test (the `\d` of the code's numeric regex). -/
def isDigitCh (c : Char) : Bool := 48 ≤ c.toNat && c.toNat ≤ 57

/-- Numeric value of a decimal digit string (most significant first). -/
def digitsToNat (ds : List Char) : Nat :=
  ds.foldl (fun acc c => acc * 10 + (c.toNat - 48)) 0

/-- Decimal digit characters of `n`, most significant first; fuelled so that the
    definition reduces (any `fuel > n` yields the digits of `n`). -/
def natDigitsGo : Nat → Nat → List Char
  | 0, _ => []
  | fuel + 1, n =>
    if n < 10 then [digitChar n]
    else natDigitsGo fuel (n / 10) ++ [digitChar (n % 10)]

/-- Decimal digit characters of `n`, most significant first. -/
def natDigits (n : Nat) : List Char := natDigitsGo (n + 1) n

/-! ## The value model -/

/-- A JavaScript number as the code distinguishes them: `NaN`, the infinities,
    negative zero, and finite values as exact decimals `m * 10 ^ e`. -/
inductive JNum where
  | nan
  | inf
  | negInf
  | negZero
  | fin (m : Int) (e : Int)
deriving DecidableEq

/-- The JDON value model: the JSON data model plus `undefined`. Objects are
    insertion-ordered key/value lists. -/
inductive Value where
  | null
  | undef
  | bool (b : Bool)
  | num (n : JNum)
  | str (s : List Char)
  | arr (elems : List Value)
  | obj (fields : List (List Char × Value))

/-- Elementwise conjunction of a comparison over two lists. -/
def allPairs (f : α → β → Bool) : List α → List β → Bool
  | [], [] => true
  | x :: xr, y :: yr => f x y && allPairs f xr yr
  | _, _ => false

/-- Fuelled boolean equality on values, used to discharge concrete
    (in)equalities by reduction. -/
def beqV : Nat → Value → Value → Bool
  | 0, _, _ => false
  | fuel + 1, a, b =>
    match a, b with
    | .null, .null => true
    | .undef, .undef => true
    | .bool x, .bool y => x = y
    | .num x, .num y => x = y
    | .str x, .str y => x = y
    | .arr xs, .arr ys => allPairs (beqV fuel) xs ys
    | .obj xs, .obj ys =>
        allPairs (fun p q : List Char × Value => p.1 = q.1 && beqV fuel p.2 q.2) xs ys
    | _, _ => false

/-! ## Lexical splitter (`splitByPipe`, `splitArrayItems`, `findTopLevelColon`)

All three source functions repeat the same quote-tracking update; it is factored
into `quoteUpd` here.  `prev` is `input[i - 1]` (`none` at the first character),
`depth` is the signed nesting counter. -/

/-- The quote-tracking update the three scanners share: a `"` or `'` whose
    immediately preceding character is not a backslash opens a string when
    outside one and closes it when it matches the opening quote. Returns the
    new `(inString, stringChar)`. -/
def quoteUpd (prev : Option Char) (inS : Bool) (sc : Char) (c : Char) : Bool × Char :=
  if (c = '"' ∨ c = '\'') ∧ prev ≠ some '\\' then
    if inS = false then (true, c)
    else if c = sc then (false, sc)
    else (inS, sc)
  else (inS, sc)

/-- The signed depth update: `{`/`[` increment, `}`/`]` decrement (only applied
    outside strings, as in the source). -/
def depthUpd (depth : Int) (c : Char) : Int :=
  depth + (if c = '{' ∨ c = '[' then 1 else 0) + (if c = '}' ∨ c = ']' then -1 else 0)

/-- Loop of `splitByPipe`: split at `|` outside strings at depth 0; the final
    segment is kept when nonempty. -/
def sbpGo (input : List Char) (prev : Option Char) (depth : Int) (inS : Bool)
    (sc : Char) (cur : List Char) (parts : List (List Char)) : List (List Char) :=
  match input with
  | [] => if cur.isEmpty then parts else parts ++ [cur]
  | c :: rest =>
    let q := quoteUpd prev inS sc c
    if q.1 then sbpGo rest (some c) depth q.1 q.2 (cur ++ [c]) parts
    else
      let d2 := depthUpd depth c
      if c = '|' ∧ d2 = 0 then sbpGo rest (some c) d2 q.1 q.2 [] (parts ++ [cur])
      else sbpGo rest (some c) d2 q.1 q.2 (cur ++ [c]) parts

/-- `splitByPipe` from the source. -/
def splitByPipe (input : List Char) : List (List Char) :=
  sbpGo input none 0 false ' ' [] []

/-- Loop of `splitArrayItems`: split at `,` outside strings at depth 0;
    segments that trim to empty are dropped. -/
def saiGo (input : List Char) (prev : Option Char) (depth : Int) (inS : Bool)
    (sc : Char) (cur : List Char) (parts : List (List Char)) : List (List Char) :=
  match input with
  | [] => if (trim cur).isEmpty then parts else parts ++ [cur]
  | c :: rest =>
    let q := quoteUpd prev inS sc c
    if q.1 then saiGo rest (some c) depth q.1 q.2 (cur ++ [c]) parts
    else
      let d2 := depthUpd depth c
      if c = ',' ∧ d2 = 0 then
        saiGo rest (some c) d2 q.1 q.2 []
          (if (trim cur).isEmpty then parts else parts ++ [cur])
      else saiGo rest (some c) d2 q.1 q.2 (cur ++ [c]) parts

/-- `splitArrayItems` from the source. -/
def splitArrayItems (input : List Char) : List (List Char) :=
  saiGo input none 0 false ' ' [] []

/-- Loop of `findTopLevelColon`: index of the first `:` outside strings at
    depth 0. -/
def ftlcGo (input : List Char) (prev : Option Char) (depth : Int) (inS : Bool)
    (sc : Char) (i : Nat) : Option Nat :=
  match input with
  | [] => none
  | c :: rest =>
    let q := quoteUpd prev inS sc c
    if q.1 then ftlcGo rest (some c) depth q.1 q.2 (i + 1)
    else
      let d2 := depthUpd depth c
      if c = ':' ∧ d2 = 0 then some i
      else ftlcGo rest (some c) d2 q.1 q.2 (i + 1)

/-- `findTopLevelColon` from the source (`none` is the `-1` sentinel). -/
def findTopLevelColon (input : List Char) : Option Nat :=
  ftlcGo input none 0 false ' ' 0

/-- Modelled from the spec: the quote-tracking update as §4.1 words it — a
    quote toggles unless immediately preceded by an *unescaped* backslash.
    `prevUBS` records whether the previous character was an unescaped
    backslash. Used only to compare the spec's rule against the code's. -/
def quoteUpdSpec (prevUBS : Bool) (inS : Bool) (sc : Char) (c : Char) : Bool × Char :=
  if (c = '"' ∨ c = '\'') ∧ prevUBS = false then
    if inS = false then (true, c)
    else if c = sc then (false, sc)
    else (inS, sc)
  else (inS, sc)

/-- Modelled from the spec: `splitByPipe` with the spec's §4.1 quote rule
    (escaped backslashes do not mask a following quote). -/
def sbpSpecGo (input : List Char) (prevUBS : Bool) (depth : Int) (inS : Bool)
    (sc : Char) (cur : List Char) (parts : List (List Char)) : List (List Char) :=
  match input with
  | [] => if cur.isEmpty then parts else parts ++ [cur]
  | c :: rest =>
    let q := quoteUpdSpec prevUBS inS sc c
    let ubs : Bool := if c = '\\' ∧ prevUBS = false then true else false
    if q.1 then sbpSpecGo rest ubs depth q.1 q.2 (cur ++ [c]) parts
    else
      let d2 := depthUpd depth c
      if c = '|' ∧ d2 = 0 then sbpSpecGo rest ubs d2 q.1 q.2 [] (parts ++ [cur])
      else sbpSpecGo rest ubs d2 q.1 q.2 (cur ++ [c]) parts

/-- Modelled from the spec: pipe-splitting under the spec's quote rule. -/
def splitByPipeSpec (input : List Char) : List (List Char) :=
  sbpSpecGo input false 0 false ' ' [] []

/-! ## Escaping and unescaping -/

/-- A control character in the class `[\x00-\x1F\x7F-\x9F]` of `escapeString`. -/
def isCtrl (c : Char) : Bool := c.toNat ≤ 0x1F || (0x7F ≤ c.toNat && c.toNat ≤ 0x9F)

/-- Lowercase hexadecimal digit character for `d < 16`. -/
def hexChar (d : Nat) : Char := Char.ofNat (if d < 10 then 48 + d else 87 + d)

/-- Lowercase hexadecimal digits of `n`, most significant first (fuelled). -/
def hexDigitsGo : Nat → Nat → List Char
  | 0, _ => []
  | fuel + 1, n =>
    if n < 16 then [hexChar n]
    else hexDigitsGo fuel (n / 16) ++ [hexChar (n % 16)]

/-- `("0000" + n.toString(16)).slice(-4)`: four zero-padded lowercase hex
    digits (for the code points escaped here, which have at most 4 digits). -/
def hex4 (n : Nat) : List Char :=
  let h := hexDigitsGo (n + 1) n
  List.replicate (4 - h.length) '0' ++ h

/-- Pass `.replace(/[\x00-\x1F\x7F-\x9F]/g, c => "\u" + hex4(c))`. -/
def replaceCtrl : List Char → List Char
  | [] => []
  | c :: r => (if isCtrl c then '\\' :: 'u' :: hex4 c.toNat else [c]) ++ replaceCtrl r

/-- `escapeString` from the source: sequential global replaces — backslash,
    double quote, newline, tab, carriage return, then the control class as
    `\uXXXX`. -/
def escapeString (s : List Char) : List Char :=
  replaceCtrl
    (replaceChar '\r' ['\\', 'r']
      (replaceChar '\t' ['\\', 't']
        (replaceChar '\n' ['\\', 'n']
          (replaceChar '"' ['\\', '"']
            (replaceChar '\\' ['\\', '\\'] s)))))

/-- Value of one hexadecimal digit character (`[0-9a-fA-F]`), else `none`. -/
def hexVal1 (c : Char) : Option Nat :=
  if 48 ≤ c.toNat ∧ c.toNat ≤ 57 then some (c.toNat - 48)
  else if 97 ≤ c.toNat ∧ c.toNat ≤ 102 then some (c.toNat - 87)
  else if 65 ≤ c.toNat ∧ c.toNat ≤ 70 then some (c.toNat - 55)
  else none

/-- Pass `.replace(/\\\\/g, "\x00")`: each (leftmost, non-overlapping) pair of
    backslashes becomes the `\x00` sentinel. -/
def replaceBSBS : List Char → List Char
  | '\\' :: '\\' :: rest => '\x00' :: replaceBSBS rest
  | c :: rest => c :: replaceBSBS rest
  | [] => []

/-- Pass `.replace(/\\x/g, r)` for a two-character pattern backslash-`x`. -/
def replaceEscPair (x : Char) (r : Char) : List Char → List Char
  | '\\' :: c :: rest =>
    if c = x then r :: replaceEscPair x r rest
    else '\\' :: replaceEscPair x r (c :: rest)
  | c :: rest => c :: replaceEscPair x r rest
  | [] => []

/-- Pass `.replace(/\\u([0-9a-fA-F]{4})/g, fromCharCode)`. -/
def replaceUni : List Char → List Char
  | '\\' :: 'u' :: a :: b :: c :: d :: rest =>
    (match hexVal1 a, hexVal1 b, hexVal1 c, hexVal1 d with
     | some va, some vb, some vc, some vd =>
       Char.ofNat (((va * 16 + vb) * 16 + vc) * 16 + vd) :: replaceUni rest
     | _, _, _, _ => '\\' :: replaceUni ('u' :: a :: b :: c :: d :: rest))
  | c :: rest => c :: replaceUni rest
  | [] => []

/-- `unescapeString` from the source: protect `\\` with the `\x00` sentinel,
    resolve the simple escapes and `\uXXXX`, then restore the sentinel to a
    single backslash. -/
def unescapeString (s : List Char) : List Char :=
  replaceChar '\x00' ['\\']
    (replaceUni
      (replaceEscPair '\'' '\''
        (replaceEscPair '"' '"'
          (replaceEscPair 'r' '\r'
            (replaceEscPair 't' '\t'
              (replaceEscPair 'n' '\n'
                (replaceBSBS s)))))))

/-- `needsQuoting` from the source. -/
def needsQuoting (s : List Char) : Bool :=
  hasCh s ':' || hasCh s '|' || hasCh s ',' || hasCh s ' ' ||
  hasCh s '{' || hasCh s '}' || hasCh s '[' || hasCh s ']' ||
  hasCh s '"' || hasCh s '\'' || hasCh s '\n' || hasCh s '\t'

/-! ## Numeric literals

`isNumericLit` is the code's regex `^-?(?:\d+\.?\d*|\.\d+)(?:[eE][+-]?\d+)?$`;
`parseNumLit` is `parseFloat` on a string matching it, idealised to exact
decimals (`Object.is(num, -0)` becomes the `negZero` variant); `numToString`
is ECMAScript `String(x)` on an exact decimal value. -/

/-- Split a maximal run of decimal digits off the front. -/
def spanDigits (s : List Char) : List Char × List Char :=
  (s.takeWhile isDigitCh, s.dropWhile isDigitCh)

/-- The optional leading minus (`-?`) of the numeric regex. -/
def stripMinus (s : List Char) : List Char :=
  match s with
  | '-' :: r => r
  | _ => s

/-- The optional-exponent tail `(?:[eE][+-]?\d+)?$` of the numeric regex. -/
def expOk : List Char → Bool
  | [] => true
  | c :: r =>
    if c = 'e' ∨ c = 'E' then
      let r2 := match r with | '+' :: t => t | '-' :: t => t | _ => r
      let p := spanDigits r2
      !p.1.isEmpty && p.2.isEmpty
    else false

/-- The code's anchored numeric regex as a matcher. -/
def isNumericLit (s : List Char) : Bool :=
  let p := spanDigits (stripMinus s)
  if p.1.isEmpty then
    match p.2 with
    | '.' :: r2 =>
      let p2 := spanDigits r2
      !p2.1.isEmpty && expOk p2.2
    | _ => false
  else
    match p.2 with
    | '.' :: r2 => expOk (spanDigits r2).2
    | _ => expOk p.2

/-- Remove factors of ten from `m`, shifting them into the exponent
    (fuelled; `fuel > m` always suffices). -/
def stripTensGo : Nat → Nat → Int → Nat × Int
  | 0, m, e => (m, e)
  | fuel + 1, m, e =>
    if m ≠ 0 ∧ m % 10 = 0 then stripTensGo fuel (m / 10) (e + 1) else (m, e)

/-- Normalise `m * 10 ^ e` so the mantissa has no trailing zeros. -/
def stripTens (m : Nat) (e : Int) : Nat × Int := stripTensGo (m + 1) m e

/-- The fraction digits after an optional decimal point, with the rest of
    the input, as read by `parseFloat`. -/
def fracPart (p2 : List Char) : List Char × List Char :=
  match p2 with
  | '.' :: r => spanDigits r
  | _ => ([], p2)

/-- The value of the optional `[eE][+-]?ddd` exponent tail (0 when absent),
    as read by `parseFloat`. -/
def expVal : List Char → Int
  | c :: r3 =>
    if c = 'e' ∨ c = 'E' then
      match r3 with
      | '+' :: t => (digitsToNat t : Int)
      | '-' :: t => -(digitsToNat t : Int)
      | t => (digitsToNat t : Int)
    else 0
  | [] => 0

/-- `parseFloat` on a string matching the numeric regex, as an exact decimal;
    a zero result with a leading minus is JavaScript's `-0`. -/
def parseNumLit (s : List Char) : JNum :=
  let neg := headIs s '-'
  let p := spanDigits (stripMinus s)
  let q := fracPart p.2
  let ev : Int := expVal q.2
  let m0 := digitsToNat (p.1 ++ q.1)
  let e0 : Int := ev - q.1.length
  if m0 = 0 then (if neg then .negZero else .fin 0 0)
  else
    let r := stripTens m0 e0
    .fin (if neg then -(r.1 : Int) else (r.1 : Int)) r.2

/-- ECMAScript `String(x)` for the exact decimal `m * 10 ^ e` (Number::toString
    base 10): plain notation while the decimal-point position lies in
    `(-6, 21]`, exponent notation outside. -/
def numToString (m : Int) (e : Int) : List Char :=
  let digs := natDigits m.natAbs
  let k : Int := digs.length
  let pos : Int := e + k
  (if m < 0 then ['-'] else []) ++
  (if k ≤ pos ∧ pos ≤ 21 then digs ++ List.replicate (pos - k).toNat '0'
   else if 0 < pos ∧ pos ≤ 21 then digs.take pos.toNat ++ '.' :: digs.drop pos.toNat
   else if -6 < pos ∧ pos ≤ 0 then '0' :: '.' :: (List.replicate (-pos).toNat '0' ++ digs)
   else
     let ex := pos - 1
     (match digs with
      | [d] => [d]
      | d :: rest => d :: '.' :: rest
      | [] => ['0'])
     ++ 'e' :: ((if ex < 0 then ['-'] else ['+']) ++ natDigits ex.natAbs))

/-! ## Object helpers -/

/-- First value stored under `k` in an association list. -/
def lookupA : List (List Char × β) → List Char → Option β
  | [], _ => none
  | (k', v) :: r, k => if k' = k then some v else lookupA r k

/-- JavaScript `o[k] = v`: update in place when the key exists, else append. -/
def assocUpd : List (List Char × β) → List Char → β → List (List Char × β)
  | [], k, v => [(k, v)]
  | (k', v') :: r, k, v =>
    if k' = k then (k', v) :: r else (k', v') :: assocUpd r k v

/-- `Object.keys` of a value (empty for non-objects). -/
def objKeys : Value → List (List Char)
  | .obj fs => fs.map Prod.fst
  | _ => []

/-- JavaScript `obj[key]`, `undefined` when absent or not an object. -/
def objGetD : Value → List Char → Value
  | .obj fs, k => (lookupA fs k).getD .undef
  | _, _ => (.undef)

/-- JavaScript default string comparison (code-unit lexicographic order). -/
def lexLe : List Char → List Char → Bool
  | [], _ => true
  | _ :: _, [] => false
  | a :: x, b :: y => if a = b then lexLe x y else decide (a < b)

/-- Insert into a `lexLe`-sorted list. -/
def insStr (s : List Char) : List (List Char) → List (List Char)
  | [] => [s]
  | t :: r => if lexLe s t then s :: t :: r else t :: insStr s r

/-- JavaScript `keys.sort()` (default comparator). -/
def sortStrs (l : List (List Char)) : List (List Char) := l.foldr insStr []

/-- Is this value a truthy non-array `object` (i.e. an `obj` in the model)? -/
def isObjV : Value → Bool
  | .obj _ => true
  | _ => false

/-- `isArrayOfObjects` from the source: nonempty, all elements objects, all
    sorted key lists equal to the first element's. -/
def isArrayOfObjects (l : List Value) : Bool :=
  match l with
  | [] => false
  | x0 :: _ =>
    l.all isObjV &&
    l.all (fun item => decide (sortStrs (objKeys item) = sortStrs (objKeys x0)))

/-! ## Parser

One fuelled function `parseRun` carries the six mutually recursive source
functions as modes; the loops over split segments are structural helpers that
take the value parser as an argument (so fuel bounds only the call depth). -/

/-- `v !== undefined`. -/
def isUndefV : Value → Bool
  | .undef => true
  | _ => false

/-- The message of the `SyntaxError` thrown by `parseObject`. -/
def objErrMsg : String := "Invalid object syntax"

/-- The message of the `SyntaxError` thrown by `parseArray`. -/
def arrErrMsg : String := "Invalid array syntax"

/-- Loop of `parsePipeDelimited`: non-blank segments with a top-level colon
    become key/value pairs; others are skipped. -/
def parsePairsGo (pv : List Char → Option (Except String Value)) :
    List (List Char) → List (List Char × Value) →
    Option (Except String (List (List Char × Value)))
  | [], acc => some (.ok acc)
  | pair :: rest, acc =>
    if (trim pair).isEmpty then parsePairsGo pv rest acc
    else
      match findTopLevelColon pair with
      | none => parsePairsGo pv rest acc
      | some idx =>
        match pv (trim (pair.drop (idx + 1))) with
        | none => none
        | some (.error e) => some (.error e)
        | some (.ok v) => parsePairsGo pv rest (assocUpd acc (trim (pair.take idx)) v)

/-- `items.map(i => pv(i.trim()))` with error propagation. -/
def parseCellsGo (pv : List Char → Option (Except String Value)) :
    List (List Char) → Option (Except String (List Value))
  | [] => some (.ok [])
  | item :: rest =>
    match pv (trim item) with
    | none => none
    | some (.error e) => some (.error e)
    | some (.ok v) =>
      match parseCellsGo pv rest with
      | none => none
      | some (.error e) => some (.error e)
      | some (.ok vs) => some (.ok (v :: vs))

/-- Loop of `parseColumnarArray`: each segment with a top-level colon becomes a
    column, its value side comma-split and parsed cell by cell. -/
def parseColsGo (pv : List Char → Option (Except String Value)) :
    List (List Char) → List (List Char × List Value) →
    Option (Except String (List (List Char × List Value)))
  | [], acc => some (.ok acc)
  | pair :: rest, acc =>
    if (trim pair).isEmpty then parseColsGo pv rest acc
    else
      match findTopLevelColon pair with
      | none => parseColsGo pv rest acc
      | some idx =>
        match parseCellsGo pv (splitArrayItems (trim (pair.drop (idx + 1)))) with
        | none => none
        | some (.error e) => some (.error e)
        | some (.ok vs) => parseColsGo pv rest (assocUpd acc (trim (pair.take idx)) vs)

/-- The parser's six source functions as modes of one fuelled function. -/
inductive PMode where
  | top      -- `parse`
  | inObj    -- `parseObject`
  | inArr    -- `parseArray`
  | inPipe   -- `parsePipeDelimited`
  | inColr   -- `parseColumnarArray`
  | inVal    -- `parseValue`

/-- The parser. `none` is fuel exhaustion (a model artifact); `some (.error m)`
    is a thrown `SyntaxError`; `some (.ok v)` is a returned value. -/
def parseRun : Nat → PMode → List Char → Option (Except String Value)
  | 0, _, _ => none
  | fuel + 1, mode, input =>
    match mode with
    | .top =>
      let s := trim input
      if s.isEmpty then some (.ok .null)
      else if headIs s '{' then parseRun fuel .inObj s
      else if headIs s '[' then parseRun fuel .inArr s
      else if hasCh s '|' && hasCh s ':' then parseRun fuel .inPipe s
      else parseRun fuel .inVal s
    | .inObj =>
      let s := trim input
      if !(headIs s '{' && lastIs s '}') then some (.error objErrMsg)
      else
        let content := trim (s.drop 1).dropLast
        if content.isEmpty then some (.ok (.obj []))
        else parseRun fuel .inPipe content
    | .inPipe =>
      match parsePairsGo (fun t => parseRun fuel .inVal t) (splitByPipe input) [] with
      | none => none
      | some (.error e) => some (.error e)
      | some (.ok fs) => some (.ok (.obj fs))
    | .inArr =>
      let s := trim input
      if !(headIs s '[' && lastIs s ']') then some (.error arrErrMsg)
      else
        let content := trim (s.drop 1).dropLast
        if content.isEmpty then some (.ok (.arr []))
        else if hasCh content '|' && hasCh content ':' then parseRun fuel .inColr content
        else
          match parseCellsGo (fun t => parseRun fuel .inVal t) (splitArrayItems content) with
          | none => none
          | some (.error e) => some (.error e)
          | some (.ok vs) => some (.ok (.arr (vs.filter (fun v => !isUndefV v))))
    | .inColr =>
      match parseColsGo (fun t => parseRun fuel .inVal t) (splitByPipe input) [] with
      | none => none
      | some (.error e) => some (.error e)
      | some (.ok cols) =>
        match cols with
        | [] => some (.ok (.arr []))
        | c0 :: _ =>
          some (.ok (.arr ((List.range c0.2.length).map (fun i =>
            .obj (cols.map (fun kc => (kc.1, (kc.2.get? i).getD .undef)))))))
    | .inVal =>
      let v := trim input
      if v.isEmpty then some (.ok .null)
      else if v = ['n', 'u', 'l', 'l'] then some (.ok .null)
      else if v = ['t', 'r', 'u', 'e'] then some (.ok (.bool true))
      else if v = ['f', 'a', 'l', 's', 'e'] then some (.ok (.bool false))
      else if v = ['u', 'n', 'd', 'e', 'f', 'i', 'n', 'e', 'd'] then some (.ok .undef)
      else if v = ['N', 'a', 'N'] then some (.ok (.num .nan))
      else if v = ['I', 'n', 'f', 'i', 'n', 'i', 't', 'y'] then some (.ok (.num .inf))
      else if v = ['-', 'I', 'n', 'f', 'i', 'n', 'i', 't', 'y'] then some (.ok (.num .negInf))
      else if (headIs v '"' && lastIs v '"') || (headIs v '\'' && lastIs v '\'') then
        some (.ok (.str (unescapeString (v.drop 1).dropLast)))
      else if headIs v '{' then parseRun fuel .inObj v
      else if headIs v '[' then parseRun fuel .inArr v
      else if isNumericLit v then some (.ok (.num (parseNumLit v)))
      -- The source's ISO-8601-prefix branch returns `value` unchanged, exactly
      -- as the final fallthrough does, so it needs no separate case.
      else some (.ok (.str v))

/-- `parse` from the source. -/
def parse (fuel : Nat) (input : List Char) : Option (Except String Value) :=
  parseRun fuel .top input

/-! ## Serializer

`stringifyValue` and `stringifyColumnar` are mutually recursive; they become
the two task kinds of one fuelled function `strRun`, with the per-element maps
as structural helpers taking the recursive serializer as an argument. -/

/-- JavaScript `parts.join(sep)` for a multi-character separator. -/
def joinSep2 (sep : List Char) : List (List Char) → List Char
  | [] => []
  | [x] => x
  | x :: y :: r => x ++ (sep ++ joinSep2 sep (y :: r))

/-- Serializer tasks: a value (`stringifyValue`) or a columnar array
    (`stringifyColumnar`). -/
inductive STask where
  | val (v : Value)
  | colr (elems : List Value)

/-- `l.map f` over values with fuel-exhaustion propagation. -/
def mapStrGo (f : Value → Option (List Char)) : List Value → Option (List (List Char))
  | [] => some []
  | v :: rest =>
    match f v with
    | none => none
    | some s =>
      match mapStrGo f rest with
      | none => none
      | some ss => some (s :: ss)

/-- `entries.map(([k, v]) => k + ":" + f(v))` with fuel-exhaustion
    propagation. -/
def mapFieldsGo (f : Value → Option (List Char)) :
    List (List Char × Value) → Option (List (List Char))
  | [] => some []
  | (k, v) :: rest =>
    match f v with
    | none => none
    | some s =>
      match mapFieldsGo f rest with
      | none => none
      | some ss => some ((k ++ ':' :: s) :: ss)

/-- The columns of `stringifyColumnar`: for each key, the elements' values at
    that key, serialized and comma-joined behind `key:`. -/
def mapColsGo (f : Value → Option (List Char)) (elems : List Value) :
    List (List Char) → Option (List (List Char))
  | [] => some []
  | k :: rest =>
    match mapStrGo (fun row => f (objGetD row k)) elems with
    | none => none
    | some cells =>
      match mapColsGo f elems rest with
      | none => none
      | some cols => some ((k ++ ':' :: joinSep ',' cells) :: cols)

/-- The serializer (`stringifyValue`/`stringifyColumnar`). `none` is fuel
    exhaustion, an artifact of the embedding. -/
def strRun : Nat → STask → Nat → Bool → Bool → Option (List Char)
  | 0, _, _, _, _ => none
  | fuel + 1, task, depth, pretty, columnar =>
    match task with
    | .colr elems =>
      -- `stringifyColumnar(arr, depth, pretty)`: keys from the first element,
      -- one `key:v1,v2,...` column per key, nested values serialized
      -- non-pretty and non-columnar.
      match elems with
      | [] => some ['[', ']']
      | x0 :: _ =>
        match mapColsGo (fun v => strRun fuel (.val v) (depth + 1) false false)
            elems (objKeys x0) with
        | none => none
        | some cols =>
          if pretty then
            some ('[' :: '\n' :: ' ' :: ' ' ::
              (joinSep2 ['|', '\n', ' ', ' '] cols ++ ['\n', ']']))
          else some ('[' :: (joinSep '|' cols ++ [']']))
    | .val v =>
      match v with
      | .null => some ['n', 'u', 'l', 'l']
      | .undef => some ['u', 'n', 'd', 'e', 'f', 'i', 'n', 'e', 'd']
      | .bool true => some ['t', 'r', 'u', 'e']
      | .bool false => some ['f', 'a', 'l', 's', 'e']
      | .num .nan => some ['N', 'a', 'N']
      | .num .inf => some ['I', 'n', 'f', 'i', 'n', 'i', 't', 'y']
      | .num .negInf => some ['-', 'I', 'n', 'f', 'i', 'n', 'i', 't', 'y']
      | .num .negZero => some ['-', '0']
      | .num (.fin m e) => some (numToString m e)
      | .str s => if needsQuoting s then some ('"' :: (escapeString s ++ ['"'])) else some s
      | .arr elems =>
        if elems.isEmpty then some ['[', ']']
        else if columnar && isArrayOfObjects elems then
          strRun fuel (.colr elems) depth pretty columnar
        else
          match mapStrGo (fun x => strRun fuel (.val x) (depth + 1) pretty columnar) elems with
          | none => none
          | some items =>
            some ('[' :: (replaceChar '|' [','] (joinSep ',' items) ++ [']']))
      | .obj fields =>
        if fields.isEmpty then some ['{', '}']
        else
          match mapFieldsGo (fun x => strRun fuel (.val x) (depth + 1) pretty columnar)
              fields with
          | none => none
          | some pairs =>
            if pretty && depth = 0 then some (joinSep2 ['|', '\n'] pairs)
            else if pretty then
              let ind := '\n' :: List.replicate (2 * (depth + 1)) ' '
              let closeInd := '\n' :: List.replicate (2 * depth) ' '
              some ('{' :: (ind ++ joinSep2 ('|' :: ind) pairs ++ closeInd ++ ['}']))
            else some ('{' :: (joinSep '|' pairs ++ ['}']))

/-- `stringify(value, {pretty, columnar})` from the source (defaults are
    `pretty: false`, `columnar: true`). -/
def stringify (fuel : Nat) (v : Value) (pretty columnar : Bool) : Option (List Char) :=
  strRun fuel (.val v) 0 pretty columnar

/-! ## Predicates used in the theorem statements -/

/-- A character that is none of the format's delimiters, quotes, JavaScript
    whitespace, or the backslash. -/
def simpleChar (c : Char) : Bool :=
  !(c = '|' || c = ',' || c = ':' || c = '"' || c = '\'' || c = '{' || c = '}' ||
    c = '[' || c = ']' || c = '\\' || isWSb c)

/-- A nonempty run of simple characters (a bare token). -/
def simpleTok (s : List Char) : Bool := !s.isEmpty && s.all simpleChar

/-- A scalar whose standalone serialization (non-pretty, non-columnar, at
    nesting depth 1) is a bare simple token that `parseValue` maps back to the
    value. Fuel 1 forces the value to be a scalar (no recursion available). -/
def scalarOK (v : Value) : Bool :=
  match strRun 1 (.val v) 1 false false with
  | none => false
  | some s =>
    simpleTok s &&
    (match parseRun 1 .inVal s with
     | some (.ok w) => beqV 2 w v
     | _ => false)

/-- `parse(stringify(x))` with the source's default options and ample fuel. -/
def roundtripDefault (x : Value) : Option (Except String Value) :=
  (stringify 40 x false true).bind (parse 40)

/-- The cumulative signed bracket depth of a span. -/
def foldDepth (d : Int) (u : List Char) : Int := u.foldl depthUpd d

/-- The last character of `u`, or `prev` when `u` is empty (the `prev` value a
    scanner carries after consuming `u`). -/
def lastP (u : List Char) (prev : Option Char) : Option Char :=
  match u.reverse with
  | c :: _ => some c
  | [] => prev

/-- The standalone serialization of a scalar (the token `scalarOK` inspects). -/
def svOf (v : Value) : List Char := (strRun 1 (.val v) 1 false false).getD []

/-- The character alphabet of `numToString` output: digits, minus, dot,
    exponent marker, plus. -/
def numChar (c : Char) : Bool :=
  isDigitCh c || c = '-' || c = '.' || c = 'e' || c = '+'

/-! ## Basic lemmas -/

theorem allPairs_eq {f : α → α → Bool} (hf : ∀ x y, f x y = true → x = y) :
    ∀ xs ys, allPairs f xs ys = true → xs = ys
  | [], [], _ => rfl
  | [], _ :: _, h => by simp [allPairs] at h
  | _ :: _, [], h => by simp [allPairs] at h
  | x :: xr, y :: yr, h => by
    rw [allPairs, Bool.and_eq_true] at h
    rw [hf x y h.1, allPairs_eq hf xr yr h.2]

theorem beqV_eq : ∀ fuel a b, beqV fuel a b = true → a = b := by
  intro fuel
  induction fuel with
  | zero => intro a b h; simp [beqV] at h
  | succ f ih =>
    intro a b h
    cases a <;> cases b
    case arr.arr xs ys =>
      simp only [beqV] at h
      exact congrArg Value.arr (allPairs_eq ih xs ys h)
    case obj.obj xs ys =>
      simp only [beqV] at h
      refine congrArg Value.obj (allPairs_eq ?_ xs ys h)
      intro p q hpq
      rw [Bool.and_eq_true, decide_eq_true_eq] at hpq
      exact Prod.ext hpq.1 (ih p.2 q.2 hpq.2)
    all_goals simp only [beqV, decide_eq_true_eq] at h
    all_goals first
      | rfl
      | (exact congrArg _ h)
      | (exact absurd h (by simp))

theorem hasCh_false_iff (s : List Char) (c : Char) :
    hasCh s c = false ↔ ∀ x ∈ s, x ≠ c := by
  induction s with
  | nil => simp [hasCh]
  | cons a r ih =>
    by_cases hac : a = c
    · simp [hasCh, hac]
    · simp [hasCh, hac, ih]

theorem hasCh_true_iff (s : List Char) (c : Char) : hasCh s c = true ↔ c ∈ s := by
  induction s with
  | nil => simp [hasCh]
  | cons a r ih =>
    by_cases hac : a = c
    · simp [hasCh, hac]
    · simp [hasCh, hac, ih, Ne.symm hac]

/-! ### Trim lemmas -/

theorem trim_def (s : List Char) : trim s = trimR (trimL s) := rfl

theorem trimL_eq_self {s : List Char} (h : ∀ c, s.head? = some c → isWSb c = false) :
    trimL s = s := by
  cases s with
  | nil => rfl
  | cons c r =>
    have := h c rfl
    simp [trimL, List.dropWhile_cons, this]

theorem trimR_eq_self {s : List Char} (h : ∀ c, s.getLast? = some c → isWSb c = false) :
    trimR s = s := by
  rw [trimR]
  have h2 : s.reverse.dropWhile isWSb = s.reverse := by
    have h3 : trimL s.reverse = s.reverse := by
      refine trimL_eq_self ?_
      intro c hc
      exact h c (by rwa [List.head?_reverse] at hc)
    rwa [trimL] at h3
  rw [h2, List.reverse_reverse]

theorem trim_eq_self {s : List Char}
    (h1 : ∀ c, s.head? = some c → isWSb c = false)
    (h2 : ∀ c, s.getLast? = some c → isWSb c = false) : trim s = s := by
  rw [trim_def, trimL_eq_self h1, trimR_eq_self h2]

theorem simpleChar_not_ws {c : Char} (h : simpleChar c = true) : isWSb c = false := by
  rw [simpleChar] at h
  simp only [Bool.not_eq_true', Bool.or_eq_false_iff, decide_eq_false_iff_not] at h
  exact h.2

theorem trim_of_simple {s : List Char} (h : ∀ c ∈ s, simpleChar c = true) :
    trim s = s := by
  refine trim_eq_self ?_ ?_
  · intro c hc
    cases s with
    | nil => simp at hc
    | cons a r =>
      simp only [List.head?, Option.some.injEq] at hc
      cases hc
      exact simpleChar_not_ws (h _ (by simp))
  · intro c hc
    exact simpleChar_not_ws (h _ (List.mem_of_mem_getLast? hc))

/-- Concrete disequality of values via the fuelled comparator. -/
theorem ne_of_beqV_false {x y : Value} (h : beqV 40 x x = true)
    (h2 : beqV 40 x y = false) : x ≠ y := by
  intro he
  rw [← he] at h2
  rw [h2] at h
  exact Bool.noConfusion h

/-- C8: parsing the columnar array text `[id:1,2,3|name:Alice,Bob,Charlie]`
    yields exactly the three-element array
    `[{id:1,name:"Alice"},{id:2,name:"Bob"},{id:3,name:"Charlie"}]` in that
    order, ids as Numbers, names as Strings, keys in first-seen column order. -/
theorem claim_C8 :
    parse 20 "[id:1,2,3|name:Alice,Bob,Charlie]".data =
      some (.ok (.arr [
        .obj [(['i', 'd'], .num (.fin 1 0)), (['n', 'a', 'm', 'e'], .str "Alice".data)],
        .obj [(['i', 'd'], .num (.fin 2 0)), (['n', 'a', 'm', 'e'], .str "Bob".data)],
        .obj [(['i', 'd'], .num (.fin 3 0)),
          (['n', 'a', 'm', 'e'], .str "Charlie".data)]])) := by
  rfl

/-- C9: the empty string does not need quoting and serializes to empty text;
    parsing empty or whitespace-only text yields Null, so
    `parse(stringify(""))` is Null, not the empty String. -/
theorem claim_C9 :
    needsQuoting [] = false ∧
    stringify 40 (.str []) false true = some [] ∧
    parse 40 [] = some (.ok .null) ∧
    parse 40 [' ', '\t'] = some (.ok .null) ∧
    roundtripDefault (.str []) = some (.ok .null) ∧
    Value.null ≠ .str [] :=
  ⟨rfl, rfl, rfl, rfl, rfl, fun h => nomatch h⟩

/-- C5 (failing input): the NUL character collides with the unescaping
    sentinel: `escapeString "\x00"` is `\u0000`, but unescaping that yields a
    single backslash, not the NUL string — the escape round-trip fails. -/
theorem claim_C5_eval :
    escapeString ['\x00'] = ['\\', 'u', '0', '0', '0', '0'] ∧
    unescapeString (escapeString ['\x00']) = ['\\'] ∧
    (['\\'] : List Char) ≠ ['\x00'] :=
  ⟨rfl, rfl, by decide⟩

/-- C1 (counterexample): for the uniform single-key array `[{a:1},{a:2}]` the
    columnar encoding is `[a:1,2]`, whose content has no `|`, so it reparses as
    a standard array `["a:1", 2]` — not the original. -/
theorem claim_C1_cex :
    stringify 40 (.arr [.obj [(['a'], .num (.fin 1 0))],
        .obj [(['a'], .num (.fin 2 0))]]) false true = some "[a:1,2]".data ∧
    roundtripDefault (.arr [.obj [(['a'], .num (.fin 1 0))],
        .obj [(['a'], .num (.fin 2 0))]]) =
      some (.ok (.arr [.str ['a', ':', '1'], .num (.fin 2 0)])) ∧
    Value.arr [.str ['a', ':', '1'], .num (.fin 2 0)] ≠
      .arr [.obj [(['a'], .num (.fin 1 0))], .obj [(['a'], .num (.fin 2 0))]] :=
  ⟨rfl, rfl, ne_of_beqV_false rfl rfl⟩

/-- C4 (counterexample): the heterogeneous array `[{a:1,b:2},{c:3}]` is indeed
    rendered in standard form, but the `|`-to-`,` replacement corrupts the
    first element's text, and it reparses as `[{a:"1,b:2"},{c:3}]` — not the
    original. -/
theorem claim_C4_cex :
    stringify 40 (.arr [.obj [(['a'], .num (.fin 1 0)), (['b'], .num (.fin 2 0))],
        .obj [(['c'], .num (.fin 3 0))]]) false true =
      some "[\x7ba:1,b:2\x7d,\x7bc:3\x7d]".data ∧
    roundtripDefault (.arr [.obj [(['a'], .num (.fin 1 0)), (['b'], .num (.fin 2 0))],
        .obj [(['c'], .num (.fin 3 0))]]) =
      some (.ok (.arr [.obj [(['a'], .str "1,b:2".data)],
        .obj [(['c'], .num (.fin 3 0))]])) ∧
    Value.arr [.obj [(['a'], .str "1,b:2".data)], .obj [(['c'], .num (.fin 3 0))]] ≠
      .arr [.obj [(['a'], .num (.fin 1 0)), (['b'], .num (.fin 2 0))],
        .obj [(['c'], .num (.fin 3 0))]] :=
  ⟨rfl, rfl, ne_of_beqV_false rfl rfl⟩

/-- C6 (counterexample): on `\\"|x` the code's splitter does split at the pipe
    (the quote is masked by the preceding backslash even though that backslash
    is itself escaped), while the spec's quote rule — toggle unless preceded by
    an *unescaped* backslash — would keep the pipe inside a string and not
    split. -/
theorem claim_C6_cex :
    splitByPipe ['\\', '\\', '"', '|', 'x'] = [['\\', '\\', '"'], ['x']] ∧
    splitByPipeSpec ['\\', '\\', '"', '|', 'x'] = [['\\', '\\', '"', '|', 'x']] ∧
    splitByPipe ['\\', '\\', '"', '|', 'x'] ≠
      splitByPipeSpec ['\\', '\\', '"', '|', 'x'] :=
  ⟨rfl, rfl, by decide⟩

/-! ## Scanner lemmas -/

theorem simpleChar_and {c : Char} (h : simpleChar c = true) :
    c ≠ '|' ∧ c ≠ ',' ∧ c ≠ ':' ∧ c ≠ '"' ∧ c ≠ '\'' ∧ c ≠ '{' ∧ c ≠ '}' ∧
    c ≠ '[' ∧ c ≠ ']' ∧ c ≠ ' ' ∧ c ≠ '\n' ∧ c ≠ '\t' ∧ c ≠ '\r' ∧ c ≠ '\\' := by
  have hws := simpleChar_not_ws h
  rw [simpleChar] at h
  simp only [Bool.not_eq_true', Bool.or_eq_false_iff, decide_eq_false_iff_not] at h
  obtain ⟨⟨⟨⟨⟨⟨⟨⟨⟨⟨h1, h2⟩, h3⟩, h4⟩, h5⟩, h6⟩, h7⟩, h8⟩, h9⟩, h10⟩, -⟩ := h
  have hw : ∀ d : Char, isWSb d = true → c ≠ d := by
    intro d hd he
    rw [he, hd] at hws
    exact Bool.noConfusion hws
  exact ⟨h1, h2, h3, h4, h5, h6, h7, h8, h9, hw ' ' (by decide), hw '\n' (by decide),
    hw '\t' (by decide), hw '\r' (by decide), h10⟩

theorem quoteUpd_nonquote (c : Char) (h1 : c ≠ '"') (h2 : c ≠ '\'')
    (prev : Option Char) (inS : Bool) (sc : Char) :
    quoteUpd prev inS sc c = (inS, sc) := by
  rw [quoteUpd, if_neg]
  intro hc
  rcases hc.1 with h | h
  · exact h1 h
  · exact h2 h

theorem depthUpd_neutral (c : Char) (h1 : c ≠ '{') (h2 : c ≠ '[') (h3 : c ≠ '}')
    (h4 : c ≠ ']') (d : Int) : depthUpd d c = d := by
  rw [depthUpd, if_neg, if_neg] <;> simp [h1, h2, h3, h4]

theorem foldDepth_cons (d : Int) (c : Char) (u : List Char) :
    foldDepth d (c :: u) = foldDepth (depthUpd d c) u := rfl

theorem foldDepth_append (d : Int) (u v : List Char) :
    foldDepth d (u ++ v) = foldDepth (foldDepth d u) v := by
  rw [foldDepth, foldDepth, foldDepth, List.foldl_append]

theorem foldDepth_nobracket {u : List Char}
    (h : ∀ c ∈ u, c ≠ '{' ∧ c ≠ '[' ∧ c ≠ '}' ∧ c ≠ ']') (d : Int) :
    foldDepth d u = d := by
  induction u generalizing d with
  | nil => rfl
  | cons c r ih =>
    have hc := h c (by simp)
    rw [foldDepth_cons, depthUpd_neutral _ hc.1 hc.2.1 hc.2.2.1 hc.2.2.2]
    exact ih (fun x hx => h x (by simp [hx])) d

theorem lastP_cons (c : Char) (u : List Char) (prev : Option Char) :
    lastP (c :: u) prev = lastP u (some c) := by
  rw [lastP, lastP]
  rcases hrev : u.reverse with _ | ⟨d, t⟩
  · have : u = [] := by simpa using congrArg List.reverse hrev
    simp [this]
  · simp [hrev]

/-- A scanner step sequence over a span with no quotes and no pipes (outside a
    string): state advances by the span's depth delta, the span is appended to
    the current segment, no split occurs. -/
theorem sbp_run (u : List Char)
    (hu : ∀ c ∈ u, c ≠ '"' ∧ c ≠ '\'' ∧ c ≠ '|') :
    ∀ (rest : List Char) (prev : Option Char) (d : Int) (sc : Char)
      (cur : List Char) (parts : List (List Char)),
      sbpGo (u ++ rest) prev d false sc cur parts =
        sbpGo rest (lastP u prev) (foldDepth d u) false sc (cur ++ u) parts := by
  induction u with
  | nil => intro rest prev d sc cur parts; simp [lastP, foldDepth]
  | cons c u' ih =>
    intro rest prev d sc cur parts
    have hc := hu c (by simp)
    rw [List.cons_append, sbpGo]
    simp only [quoteUpd_nonquote _ hc.1 hc.2.1]
    rw [if_neg (by simp), if_neg (by simp [hc.2.2])]
    rw [ih (fun x hx => hu x (by simp [hx])) rest (some c) (depthUpd d c) sc (cur ++ [c]) parts]
    rw [lastP_cons, foldDepth_cons]
    simp

/-- A pipe at depth 0 outside a string splits. -/
theorem sbp_pipe_step (rest : List Char) (prev : Option Char) (sc : Char)
    (cur : List Char) (parts : List (List Char)) :
    sbpGo ('|' :: rest) prev 0 false sc cur parts =
      sbpGo rest (some '|') 0 false sc [] (parts ++ [cur]) := by
  rw [sbpGo]
  simp only [quoteUpd_nonquote '|' (by decide) (by decide)]
  rw [if_neg (by simp)]
  rw [depthUpd_neutral '|' (by decide) (by decide) (by decide) (by decide)]
  rw [if_pos (by simp)]

/-- `splitByPipe` splits `cols.join("|")` back into `cols` when each column is
    nonempty, bracket-balanced, and free of quotes and pipes. -/
theorem sbp_join (cols : List (List Char))
    (h : ∀ col ∈ cols, col ≠ [] ∧ foldDepth 0 col = 0 ∧
      ∀ c ∈ col, c ≠ '"' ∧ c ≠ '\'' ∧ c ≠ '|') :
    ∀ (prev : Option Char) (sc : Char) (parts : List (List Char)),
      sbpGo (joinSep '|' cols) prev 0 false sc [] parts = parts ++ cols := by
  induction cols with
  | nil => intro prev sc parts; simp [joinSep, sbpGo]
  | cons x r ih =>
    intro prev sc parts
    have hx := h x (by simp)
    cases r with
    | nil =>
      rw [joinSep, show x = x ++ [] by simp, sbp_run x (hx.2.2)]
      rw [sbpGo]
      simp [hx.2.1, hx.1]
    | cons y t =>
      rw [joinSep, sbp_run x (hx.2.2), hx.2.1, List.nil_append, sbp_pipe_step]
      rw [ih (fun col hcol => h col (by simp [hcol])) (some '|') sc (parts ++ [x])]
      simp

theorem splitByPipe_join (cols : List (List Char))
    (h : ∀ col ∈ cols, col ≠ [] ∧ foldDepth 0 col = 0 ∧
      ∀ c ∈ col, c ≠ '"' ∧ c ≠ '\'' ∧ c ≠ '|') :
    splitByPipe (joinSep '|' cols) = cols := by
  rw [splitByPipe, sbp_join cols h]
  simp

theorem sai_run (u : List Char)
    (hu : ∀ c ∈ u, c ≠ '"' ∧ c ≠ '\'' ∧ c ≠ ',') :
    ∀ (rest : List Char) (prev : Option Char) (d : Int) (sc : Char)
      (cur : List Char) (parts : List (List Char)),
      saiGo (u ++ rest) prev d false sc cur parts =
        saiGo rest (lastP u prev) (foldDepth d u) false sc (cur ++ u) parts := by
  induction u with
  | nil => intro rest prev d sc cur parts; simp [lastP, foldDepth]
  | cons c u' ih =>
    intro rest prev d sc cur parts
    have hc := hu c (by simp)
    rw [List.cons_append, saiGo]
    simp only [quoteUpd_nonquote _ hc.1 hc.2.1]
    rw [if_neg (by simp), if_neg (by simp [hc.2.2])]
    rw [ih (fun x hx => hu x (by simp [hx])) rest (some c) (depthUpd d c) sc (cur ++ [c]) parts]
    rw [lastP_cons, foldDepth_cons]
    simp

theorem sai_comma_step (rest : List Char) (prev : Option Char) (sc : Char)
    (cur : List Char) (parts : List (List Char)) :
    saiGo (',' :: rest) prev 0 false sc cur parts =
      saiGo rest (some ',') 0 false sc []
        (if (trim cur).isEmpty then parts else parts ++ [cur]) := by
  rw [saiGo]
  simp only [quoteUpd_nonquote ',' (by decide) (by decide)]
  rw [if_neg (by simp)]
  rw [depthUpd_neutral ',' (by decide) (by decide) (by decide) (by decide)]
  rw [if_pos (by simp)]

/-- `splitArrayItems` splits `cells.join(",")` back into `cells` when each cell
    trims nonempty, is bracket-balanced, and is free of quotes and commas. -/
theorem sai_join (cells : List (List Char))
    (h : ∀ cell ∈ cells, (trim cell).isEmpty = false ∧ foldDepth 0 cell = 0 ∧
      ∀ c ∈ cell, c ≠ '"' ∧ c ≠ '\'' ∧ c ≠ ',') :
    ∀ (prev : Option Char) (sc : Char) (parts : List (List Char)),
      saiGo (joinSep ',' cells) prev 0 false sc [] parts = parts ++ cells := by
  induction cells with
  | nil => intro prev sc parts; simp [joinSep, saiGo, trim, trimL, trimR]
  | cons x r ih =>
    intro prev sc parts
    have hx := h x (by simp)
    cases r with
    | nil =>
      rw [joinSep, show x = x ++ [] by simp, sai_run x (hx.2.2)]
      rw [saiGo]
      simp [hx.2.1, hx.1]
    | cons y t =>
      rw [joinSep, sai_run x (hx.2.2), hx.2.1, List.nil_append, sai_comma_step]
      rw [if_neg (by simp [hx.1])]
      rw [ih (fun cell hcell => h cell (by simp [hcell])) (some ',') sc (parts ++ [x])]
      simp

theorem splitArrayItems_join (cells : List (List Char))
    (h : ∀ cell ∈ cells, (trim cell).isEmpty = false ∧ foldDepth 0 cell = 0 ∧
      ∀ c ∈ cell, c ≠ '"' ∧ c ≠ '\'' ∧ c ≠ ',') :
    splitArrayItems (joinSep ',' cells) = cells := by
  rw [splitArrayItems, sai_join cells h]
  simp

theorem ftlc_run (u : List Char)
    (hu : ∀ c ∈ u, c ≠ '"' ∧ c ≠ '\'' ∧ c ≠ ':') :
    ∀ (rest : List Char) (prev : Option Char) (d : Int) (sc : Char) (i : Nat),
      ftlcGo (u ++ rest) prev d false sc i =
        ftlcGo rest (lastP u prev) (foldDepth d u) false sc (i + u.length) := by
  induction u with
  | nil => intro rest prev d sc i; simp [lastP, foldDepth]
  | cons c u' ih =>
    intro rest prev d sc i
    have hc := hu c (by simp)
    rw [List.cons_append, ftlcGo]
    simp only [quoteUpd_nonquote _ hc.1 hc.2.1]
    rw [if_neg (by simp), if_neg (by simp [hc.2.2])]
    rw [ih (fun x hx => hu x (by simp [hx])) rest (some c) (depthUpd d c) sc (i + 1)]
    rw [lastP_cons, foldDepth_cons]
    simp only [List.length_cons]
    ring_nf

/-- `findTopLevelColon` finds the colon after a quote-, colon-free,
    bracket-balanced key. -/
theorem ftlc_at (k rest : List Char)
    (hk : ∀ c ∈ k, c ≠ '"' ∧ c ≠ '\'' ∧ c ≠ ':') (hd : foldDepth 0 k = 0) :
    findTopLevelColon (k ++ ':' :: rest) = some k.length := by
  rw [findTopLevelColon, ftlc_run k hk, hd, ftlcGo]
  simp only [quoteUpd_nonquote ':' (by decide) (by decide)]
  rw [if_neg (by simp)]
  rw [depthUpd_neutral ':' (by decide) (by decide) (by decide) (by decide)]
  rw [if_pos (by simp)]
  simp

/-- Without any pipe character no split ever happens. -/
theorem sbp_no_pipe : ∀ (s : List Char), '|' ∉ s →
    ∀ (prev : Option Char) (d : Int) (inS : Bool) (sc : Char)
      (cur : List Char) (parts : List (List Char)),
      sbpGo s prev d inS sc cur parts =
        if (cur ++ s).isEmpty then parts else parts ++ [cur ++ s] := by
  intro s
  induction s with
  | nil =>
    intro h prev d inS sc cur parts
    rw [sbpGo]
    simp
  | cons c rest ih =>
    intro h prev d inS sc cur parts
    have hc : c ≠ '|' := fun hh => h (by simp [hh])
    have hrest : '|' ∉ rest := fun hh => h (by simp [hh])
    rw [sbpGo]
    by_cases hq : (quoteUpd prev inS sc c).1 = true
    · rw [if_pos hq, ih hrest]
      simp
    · rw [if_neg hq, if_neg (by simp [hc]), ih hrest]
      simp

theorem splitByPipe_no_pipe (s : List Char) (hne : s ≠ []) (h : '|' ∉ s) :
    splitByPipe s = [s] := by
  rw [splitByPipe, sbp_no_pipe s h]
  simp [hne]

/-! ## C10: columnar dispatch that skips every segment -/

theorem parseColsGo_skip (pv : List Char → Option (Except String Value)) :
    ∀ (cols : List (List Char)) (acc : List (List Char × List Value)),
      (∀ col ∈ cols, (trim col).isEmpty = true ∨ findTopLevelColon col = none) →
      parseColsGo pv cols acc = some (.ok acc) := by
  intro cols
  induction cols with
  | nil => intro acc h; rfl
  | cons col rest ih =>
    intro acc h
    rw [parseColsGo]
    rcases h col (by simp) with hc | hc
    · rw [if_pos hc]
      exact ih acc (fun x hx => h x (by simp [hx]))
    · by_cases hemp : (trim col).isEmpty = true
      · rw [if_pos hemp]
        exact ih acc (fun x hx => h x (by simp [hx]))
      · rw [if_neg hemp, hc]
        exact ih acc (fun x hx => h x (by simp [hx]))

theorem lastIs_concat (l : List Char) (x : Char) : lastIs (l ++ [x]) x = true := by
  rw [lastIs, List.reverse_append]
  simp [headIs]

theorem hasCh_ne_nil {s : List Char} {c : Char} (h : hasCh s c = true) : s ≠ [] := by
  intro he
  rw [he] at h
  exact Bool.noConfusion h

/-- C10: for any bracketed array text whose (trimmed) inner content contains
    both `|` and `:` but in which every top-level-pipe-split segment is blank
    or lacks a top-level colon, `parse` returns the empty Array: columnar
    dispatch is chosen, every segment is skipped, and all elements are
    discarded without error. -/
theorem claim_C10 (content : List Char) (fuel : Nat) (hfuel : 3 ≤ fuel)
    (htrim : trim content = content)
    (hpipe : hasCh content '|' = true) (hcolon : hasCh content ':' = true)
    (hsegs : ∀ seg ∈ splitByPipe content,
      (trim seg).isEmpty = true ∨ findTopLevelColon seg = none) :
    parse fuel ('[' :: (content ++ [']'])) = some (.ok (.arr [])) := by
  obtain ⟨f, rfl⟩ : ∃ f, fuel = f + 3 := ⟨fuel - 3, by omega⟩
  have hlast : ('[' :: (content ++ [']'])).getLast? = some ']' := by
    rw [show '[' :: (content ++ [']']) = ('[' :: content) ++ [']'] by simp]
    exact List.getLast?_concat _
  have htr : trim ('[' :: (content ++ [']'])) = '[' :: (content ++ [']']) := by
    refine trim_eq_self ?_ ?_
    · intro c hc
      simp only [List.head?, Option.some.injEq] at hc
      cases hc
      decide
    · intro c hc
      rw [hlast] at hc
      cases hc
      decide
  rw [parse, show f + 3 = (f + 2) + 1 from rfl, parseRun]
  simp only [htr]
  rw [if_neg (by simp), if_neg (by simp [headIs]), if_pos (by simp [headIs])]
  rw [show f + 2 = (f + 1) + 1 from rfl, parseRun]
  simp only [htr]
  rw [if_neg ?hbr]
  case hbr =>
    have h2 : lastIs ('[' :: (content ++ [']'])) ']' = true := by
      rw [show '[' :: (content ++ [']']) = ('[' :: content) ++ [']'] by simp]
      exact lastIs_concat _ _
    rw [h2]
    simp [headIs]
  have hdrop : trim (('[' :: (content ++ [']'])).drop 1).dropLast = content := by
    rw [List.drop_one, List.tail_cons, List.dropLast_concat, htrim]
  simp only [hdrop]
  rw [if_neg (by simp [List.isEmpty_eq_true, hasCh_ne_nil hpipe]),
    if_pos (by rw [hpipe, hcolon]; rfl)]
  rw [show f + 1 = f + 1 from rfl, parseRun]
  rw [parseColsGo_skip _ (splitByPipe content) [] hsegs]

/-- C10 (witness): the row-form input `[{a:1|b:2}]` — an array containing one
    two-key object written with explicit braces — parses to the empty array. -/
theorem claim_C10_witness :
    parse 3 "[\x7ba:1|b:2\x7d]".data = some (.ok (.arr [])) := by
  have h := claim_C10 "\x7ba:1|b:2\x7d".data 3 (by omega) (by decide) (by decide)
    (by decide) (by decide)
  exact h

/-! ## C7: the pipe-to-comma replacement in standard array rendering -/

theorem replaceChar_pipe_not_mem : ∀ (s : List Char), '|' ∉ replaceChar '|' [','] s := by
  intro s
  induction s with
  | nil => simp [replaceChar]
  | cons c r ih =>
    rw [replaceChar]
    by_cases hc : c = '|'
    · rw [if_pos hc]
      intro hmem
      rcases List.mem_append.mp hmem with h | h
      · simp at h
      · exact ih h
    · rw [if_neg hc]
      intro hmem
      rcases List.mem_append.mp hmem with h | h
      · simp at h
        exact hc h.symm
      · exact ih h

theorem replaceChar_id {s : List Char} (h : '|' ∉ s) :
    replaceChar '|' [','] s = s := by
  induction s with
  | nil => rfl
  | cons c r ih =>
    rw [replaceChar, if_neg (fun hc => h (by simp [hc]))]
    rw [ih (fun hc => h (by simp [hc]))]
    rfl

/-- C7: when a nonempty array is rendered in standard (non-columnar) form —
    because the columnar option is off or the elements are not a uniform
    object array — the output is the bracketed comma-join of the recursively
    serialized elements with every `|` replaced by `,`, and the text between
    the brackets contains no `|`, including text inside quoted string
    literals. -/
theorem claim_C7 (elems : List Value) (depth : Nat) (pretty columnar : Bool)
    (fuel : Nat) (hne : elems.isEmpty = false)
    (hstd : columnar = false ∨ isArrayOfObjects elems = false) (out : List Char)
    (hout : strRun (fuel + 1) (.val (.arr elems)) depth pretty columnar = some out) :
    ∃ items,
      mapStrGo (fun x => strRun fuel (.val x) (depth + 1) pretty columnar) elems =
        some items ∧
      out = '[' :: (replaceChar '|' [','] (joinSep ',' items) ++ [']']) ∧
      ∀ c ∈ replaceChar '|' [','] (joinSep ',' items), c ≠ '|' := by
  rw [strRun] at hout
  rw [if_neg (by simp [hne])] at hout
  have hcol : (columnar && isArrayOfObjects elems) = false := by
    rcases hstd with h | h <;> simp [h]
  rw [if_neg (by simp [hcol])] at hout
  rcases hmap : mapStrGo (fun x => strRun fuel (.val x) (depth + 1) pretty columnar)
      elems with _ | items
  · rw [hmap] at hout
    exact Option.noConfusion hout
  · rw [hmap] at hout
    refine ⟨items, rfl, ?_, ?_⟩
    · exact (Option.some.injEq _ _ ▸ hout).symm
    · intro c hc hceq
      cases hceq
      exact replaceChar_pipe_not_mem _ hc

/-- C7 (witness): the singleton array holding the string `a|b` — whose quoted
    serialization contains a literal `|` — renders with the pipe rewritten to a
    comma even inside the string literal: the output is `["a,b"]`. -/
theorem claim_C7_witness :
    ∃ items,
      mapStrGo (fun x => strRun 10 (.val x) 1 false true) [Value.str ['a', '|', 'b']] =
        some items ∧
      "[\"a,b\"]".data = '[' :: (replaceChar '|' [','] (joinSep ',' items) ++ [']']) ∧
      ∀ c ∈ replaceChar '|' [','] (joinSep ',' items), c ≠ '|' :=
  claim_C7 [Value.str ['a', '|', 'b']] 0 false true 10 rfl (Or.inr rfl)
    "[\"a,b\"]".data (by rfl)

/-! ## C3: every failure is a bracket-pairing failure; otherwise total -/

theorem headIs_mem {s : List Char} {c : Char} (h : headIs s c = true) : c ∈ s := by
  cases s with
  | nil => simp [headIs] at h
  | cons x r =>
    rw [headIs, decide_eq_true_eq] at h
    simp [h]

theorem sbpGo_parts_shift :
    ∀ (input : List Char) (prev : Option Char) (d : Int) (inS : Bool) (sc : Char)
      (cur : List Char) (parts : List (List Char)),
      sbpGo input prev d inS sc cur parts = parts ++ sbpGo input prev d inS sc cur [] := by
  intro input
  induction input with
  | nil =>
    intro prev d inS sc cur parts
    rw [sbpGo, sbpGo]
    by_cases hemp : cur.isEmpty = true
    · rw [if_pos hemp, if_pos hemp]; simp
    · rw [if_neg hemp, if_neg hemp]; simp
  | cons c rest ih =>
    intro prev d inS sc cur parts
    rw [sbpGo, sbpGo]
    by_cases hq : (quoteUpd prev inS sc c).1 = true
    · rw [if_pos hq, if_pos hq]
      exact ih _ _ _ _ _ parts
    · rw [if_neg hq, if_neg hq]
      dsimp only
      by_cases hsep : c = '|' ∧ depthUpd d c = 0
      · rw [if_pos hsep, if_pos hsep]
        rw [ih _ _ _ _ _ (parts ++ [cur]), ih _ _ _ _ _ ([] ++ [cur])]
        simp
      · rw [if_neg hsep, if_neg hsep]
        exact ih _ _ _ _ _ parts

/-- A quote immediately preceded by a backslash does not toggle the state
    (outside a string). -/
theorem sbp_quote_masked {q : Char} (hq : q = '"' ∨ q = '\'')
    (rest : List Char) (d : Int) (sc : Char) (cur : List Char)
    (parts : List (List Char)) :
    sbpGo (q :: rest) (some '\\') d false sc cur parts =
      sbpGo rest (some q) d false sc (cur ++ [q]) parts := by
  have hq1 : quoteUpd (some '\\') false sc q = (false, sc) := by
    rw [quoteUpd, if_neg]
    intro hcon
    exact hcon.2 rfl
  rw [sbpGo]
  simp only [hq1]
  rw [if_neg (by simp)]
  have hnb : depthUpd d q = d := by
    rcases hq with h | h <;> subst h <;> simp [depthUpd]
  rw [hnb]
  have hnp : ¬(q = '|' ∧ d = 0) := by
    intro hcon
    rcases hq with h | h <;> rw [h] at hcon <;> exact absurd hcon.1 (by decide)
  rw [if_neg hnp]

/-- An unmasked quote outside a string opens one. -/
theorem sbp_quote_open {q : Char} (hq : q = '"' ∨ q = '\'') {prev : Option Char}
    (hprev : prev ≠ some '\\') (rest : List Char) (d : Int) (sc : Char)
    (cur : List Char) (parts : List (List Char)) :
    sbpGo (q :: rest) prev d false sc cur parts =
      sbpGo rest (some q) d true q (cur ++ [q]) parts := by
  have hq1 : quoteUpd prev false sc q = (true, q) := by
    rw [quoteUpd, if_pos ⟨hq, hprev⟩]
    rfl
  rw [sbpGo]
  simp only [hq1]
  rw [if_pos trivial]

/-- An unmasked quote matching the opening quote closes the string. -/
theorem sbp_quote_close {q : Char} (hq : q = '"' ∨ q = '\'') {prev : Option Char}
    (hprev : prev ≠ some '\\') (rest : List Char) (d : Int) (cur : List Char)
    (parts : List (List Char)) :
    sbpGo (q :: rest) prev d true q cur parts =
      sbpGo rest (some q) d false q (cur ++ [q]) parts := by
  have hq1 : quoteUpd prev true q q = (false, q) := by
    rw [quoteUpd, if_pos ⟨hq, hprev⟩, if_neg (by simp), if_pos rfl]
  rw [sbpGo]
  simp only [hq1]
  rw [if_neg (by simp)]
  have hnb : depthUpd d q = d := by
    rcases hq with h | h <;> subst h <;> simp [depthUpd]
  rw [hnb]
  have hnp : ¬(q = '|' ∧ d = 0) := by
    intro hcon
    rcases hq with h | h <;> rw [h] at hcon <;> exact absurd hcon.1 (by decide)
  rw [if_neg hnp]

/-- An unmasked quote different from the opening quote leaves the string
    state unchanged. -/
theorem sbp_quote_other {q sc : Char} (hq : q = '"' ∨ q = '\'') (hne : q ≠ sc)
    {prev : Option Char} (hprev : prev ≠ some '\\') (rest : List Char) (d : Int)
    (cur : List Char) (parts : List (List Char)) :
    sbpGo (q :: rest) prev d true sc cur parts =
      sbpGo rest (some q) d true sc (cur ++ [q]) parts := by
  have hq1 : quoteUpd prev true sc q = (true, sc) := by
    rw [quoteUpd, if_pos ⟨hq, hprev⟩, if_neg (by simp), if_neg hne]
  rw [sbpGo]
  simp only [hq1]
  rw [if_pos trivial]

/-- Inside a string every non-quote character is simply appended. -/
theorem sbp_inS_run (w : List Char) (hw : ∀ c ∈ w, c ≠ '"' ∧ c ≠ '\'') :
    ∀ (rest : List Char) (prev : Option Char) (d : Int) (sc : Char)
      (cur : List Char) (parts : List (List Char)),
      sbpGo (w ++ rest) prev d true sc cur parts =
        sbpGo rest (lastP w prev) d true sc (cur ++ w) parts := by
  induction w with
  | nil => intro rest prev d sc cur parts; simp [lastP]
  | cons c w' ih =>
    intro rest prev d sc cur parts
    have hc := hw c (by simp)
    rw [List.cons_append, sbpGo]
    simp only [quoteUpd_nonquote _ hc.1 hc.2]
    rw [if_pos trivial]
    rw [ih (fun x hx => hw x (by simp [hx])) rest (some c) d sc (cur ++ [c]) parts]
    rw [lastP_cons]
    simp

theorem lastP_ne_bs {u : List Char} (hu : ∀ c ∈ u, c ≠ '\\') :
    lastP u none ≠ some '\\' := by
  rw [lastP]
  rcases hrev : u.reverse with _ | ⟨c, t⟩
  · simp
  · have hc : c ∈ u := by
      rw [← List.mem_reverse, hrev]
      simp
    simp [hu c hc]

/-- C6 (amended): in the splitter's quote tracking, a `"` or `'` toggles the
    inside-string state unless the immediately preceding character is a
    backslash — even when that backslash is itself escaped — and only the same
    quote character that opened a string closes it.  Behaviorally, over any
    quote-, pipe- and backslash-free, bracket-balanced prefix `u`: (i) after
    `\` a quote does not open a string, so a following pipe splits; (ii) after
    `\\` a quote still does not open a string (the masking backslash may
    itself be escaped); (iii) an unmasked quote opens a string, so a following
    pipe does not split; (iv) a `'` inside a `"`-string neither closes it nor
    splits, while the matching `"` closes it. -/
theorem claim_C6 (u w : List Char) (q : Char) (hq : q = '"' ∨ q = '\'')
    (hu : ∀ c ∈ u, c ≠ '"' ∧ c ≠ '\'' ∧ c ≠ '|' ∧ c ≠ '\\')
    (hd : foldDepth 0 u = 0) :
    ((splitByPipe (u ++ '\\' :: q :: '|' :: w)).head? = some (u ++ ['\\', q])) ∧
    ((splitByPipe (u ++ '\\' :: '\\' :: q :: '|' :: w)).head? =
      some (u ++ ['\\', '\\', q])) ∧
    ((∀ c ∈ w, c ≠ '"' ∧ c ≠ '\'') →
      splitByPipe (u ++ q :: '|' :: w) = [u ++ q :: '|' :: w]) ∧
    ((splitByPipe (u ++ '"' :: 'a' :: '\'' :: '|' :: '"' :: '|' :: w)).head? =
      some (u ++ ['"', 'a', '\'', '|', '"'])) := by
  have hu3 : ∀ c ∈ u, c ≠ '"' ∧ c ≠ '\'' ∧ c ≠ '|' :=
    fun c hc => ⟨(hu c hc).1, (hu c hc).2.1, (hu c hc).2.2.1⟩
  have hbs : ∀ c ∈ ['\\'], c ≠ '"' ∧ c ≠ '\'' ∧ c ≠ '|' := by decide
  have hlp : ∀ p : Option Char, lastP ['\\'] p = some '\\' := fun p => rfl
  have hfd : ∀ d : Int, foldDepth d ['\\'] = d := by
    intro d
    simp [foldDepth, depthUpd, List.foldl]
  refine ⟨?_, ?_, ?_, ?_⟩
  · rw [splitByPipe, sbp_run u hu3, hd]
    rw [show ('\\' :: q :: '|' :: w) = ['\\'] ++ (q :: '|' :: w) from rfl,
      sbp_run ['\\'] hbs, hlp, hfd]
    rw [sbp_quote_masked hq, sbp_pipe_step, sbpGo_parts_shift]
    simp
  · rw [splitByPipe, sbp_run u hu3, hd]
    rw [show ('\\' :: '\\' :: q :: '|' :: w) = ['\\'] ++ ('\\' :: q :: '|' :: w) from rfl,
      sbp_run ['\\'] hbs, hlp, hfd]
    rw [show ('\\' :: q :: '|' :: w) = ['\\'] ++ (q :: '|' :: w) from rfl,
      sbp_run ['\\'] hbs, hlp, hfd]
    rw [sbp_quote_masked hq, sbp_pipe_step, sbpGo_parts_shift]
    simp
  · intro hw
    have hubs : ∀ c ∈ u, c ≠ '\\' := fun c hc => (hu c hc).2.2.2
    rw [splitByPipe, sbp_run u hu3, hd]
    rw [sbp_quote_open hq (lastP_ne_bs hubs)]
    rw [show ('|' :: w) = ('|' :: w) ++ [] from (List.append_nil _).symm]
    rw [sbp_inS_run ('|' :: w) ?hwq]
    case hwq =>
      intro c hc
      rcases List.mem_cons.mp hc with h | h
      · subst h; exact ⟨by decide, by decide⟩
      · exact hw c h
    rw [sbpGo]
    rw [if_neg (by simp)]
    simp
  · have hubs : ∀ c ∈ u, c ≠ '\\' := fun c hc => (hu c hc).2.2.2
    rw [splitByPipe, sbp_run u hu3, hd]
    rw [sbp_quote_open (Or.inl rfl) (lastP_ne_bs hubs)]
    rw [show ('a' :: '\'' :: '|' :: '"' :: '|' :: w) =
      ['a'] ++ ('\'' :: '|' :: '"' :: '|' :: w) from rfl]
    rw [sbp_inS_run ['a'] (by decide)]
    rw [show lastP ['a'] (some '"') = some 'a' from rfl]
    rw [sbp_quote_other (Or.inr rfl) (by decide) (by simp)]
    rw [show ('|' :: '"' :: '|' :: w) = ['|'] ++ ('"' :: '|' :: w) from rfl]
    rw [sbp_inS_run ['|'] (by decide)]
    rw [show lastP ['|'] (some '\'') = some '|' from rfl]
    rw [sbp_quote_close (Or.inl rfl) (by simp)]
    rw [sbp_pipe_step, sbpGo_parts_shift]
    simp

/-- C6 (witness): the amended quote-tracking behavior at `u = []`, `w = [x]`,
    quote `"`. -/
theorem claim_C6_witness :
    ((splitByPipe ('\\' :: '"' :: '|' :: ['x'])).head? = some ['\\', '"']) ∧
    ((splitByPipe ('\\' :: '\\' :: '"' :: '|' :: ['x'])).head? =
      some ['\\', '\\', '"']) ∧
    ((∀ c ∈ ['x'], c ≠ '"' ∧ c ≠ '\'') →
      splitByPipe ('"' :: '|' :: ['x']) = ['"' :: '|' :: ['x']]) ∧
    ((splitByPipe ('"' :: 'a' :: '\'' :: '|' :: '"' :: '|' :: ['x'])).head? =
      some ['"', 'a', '\'', '|', '"']) :=
  claim_C6 [] ['x'] '"' (Or.inl rfl) (by simp) rfl

/-! ## Digit-string lemmas -/

theorem natDigitsGo_stable :
    ∀ (n f1 : Nat), n < f1 → ∀ f2, n < f2 → natDigitsGo f1 n = natDigitsGo f2 n := by
  intro n
  induction n using Nat.strongRecOn with
  | _ n ih =>
    intro f1 h1 f2 h2
    obtain ⟨g1, rfl⟩ : ∃ g1, f1 = g1 + 1 := ⟨f1 - 1, by omega⟩
    obtain ⟨g2, rfl⟩ : ∃ g2, f2 = g2 + 1 := ⟨f2 - 1, by omega⟩
    rw [natDigitsGo, natDigitsGo]
    by_cases h10 : n < 10
    · rw [if_pos h10, if_pos h10]
    · rw [if_neg h10, if_neg h10]
      rw [ih (n / 10) (by omega) g1 (by omega) g2 (by omega)]

theorem natDigits_unfold (n : Nat) :
    natDigits n = if n < 10 then [digitChar n]
      else natDigits (n / 10) ++ [digitChar (n % 10)] := by
  rw [natDigits, natDigitsGo]
  by_cases h10 : n < 10
  · rw [if_pos h10, if_pos h10]
  · rw [if_neg h10, if_neg h10, natDigits]
    rw [natDigitsGo_stable (n / 10) n (by omega) (n / 10 + 1) (by omega)]

theorem digitChar_spec (d : Nat) (h : d < 10) :
    isDigitCh (digitChar d) = true ∧ (digitChar d).toNat - 48 = d ∧
    (digitChar d).toNat = 48 + d := by
  interval_cases d <;> exact ⟨rfl, rfl, rfl⟩

theorem natDigits_ne_nil (n : Nat) : natDigits n ≠ [] := by
  rw [natDigits_unfold]
  by_cases h10 : n < 10
  · rw [if_pos h10]; simp
  · rw [if_neg h10]; simp

theorem natDigits_all_digit (n : Nat) : ∀ c ∈ natDigits n, isDigitCh c = true := by
  induction n using Nat.strongRecOn with
  | _ n ih =>
    intro c hc
    rw [natDigits_unfold] at hc
    by_cases h10 : n < 10
    · rw [if_pos h10] at hc
      rw [List.mem_singleton] at hc
      exact hc ▸ (digitChar_spec n h10).1
    · rw [if_neg h10] at hc
      rcases List.mem_append.mp hc with h | h
      · exact ih (n / 10) (by omega) c h
      · rw [List.mem_singleton] at h
        exact h ▸ (digitChar_spec (n % 10) (by omega)).1

theorem digitsToNat_from (l : List Char) :
    ∀ acc : Nat, l.foldl (fun acc c => acc * 10 + (c.toNat - 48)) acc =
      acc * 10 ^ l.length + digitsToNat l := by
  induction l with
  | nil => intro acc; simp [digitsToNat]
  | cons c r ih =>
    intro acc
    rw [List.foldl_cons, ih (acc * 10 + (c.toNat - 48))]
    have h2 : digitsToNat (c :: r) = (c.toNat - 48) * 10 ^ r.length + digitsToNat r := by
      rw [digitsToNat, List.foldl_cons, ih (0 * 10 + (c.toNat - 48))]
      ring
    rw [h2, List.length_cons]
    ring

theorem digitsToNat_append (a b : List Char) :
    digitsToNat (a ++ b) = digitsToNat a * 10 ^ b.length + digitsToNat b := by
  rw [digitsToNat, List.foldl_append, digitsToNat_from]
  rfl

theorem digitsToNat_natDigits (n : Nat) : digitsToNat (natDigits n) = n := by
  induction n using Nat.strongRecOn with
  | _ n ih =>
    rw [natDigits_unfold]
    by_cases h10 : n < 10
    · rw [if_pos h10]
      rw [digitsToNat, List.foldl_cons, List.foldl_nil]
      rw [(digitChar_spec n h10).2.1]
      omega
    · rw [if_neg h10]
      rw [digitsToNat_append, ih (n / 10) (by omega)]
      rw [digitsToNat, List.foldl_cons, List.foldl_nil]
      rw [(digitChar_spec (n % 10) (by omega)).2.1]
      simp only [List.length_singleton, pow_one]
      omega

theorem digitsToNat_replicate_zero (k : Nat) :
    digitsToNat (List.replicate k '0') = 0 := by
  induction k with
  | zero => rfl
  | succ j ih =>
    rw [List.replicate_succ, digitsToNat, List.foldl_cons]
    show List.foldl _ 0 (List.replicate j '0') = 0
    exact ih

theorem spanDigits_split (ds rest : List Char) (h1 : ∀ c ∈ ds, isDigitCh c = true)
    (h2 : ∀ c, rest.head? = some c → isDigitCh c = false) :
    spanDigits (ds ++ rest) = (ds, rest) := by
  induction ds with
  | nil =>
    cases rest with
    | nil => rfl
    | cons c r =>
      have := h2 c rfl
      simp [spanDigits, List.takeWhile_cons, List.dropWhile_cons, this]
  | cons d ds' ih =>
    have hd := h1 d (by simp)
    have := ih (fun c hc => h1 c (by simp [hc]))
    rw [spanDigits] at this ⊢
    simp only [List.cons_append, List.takeWhile_cons, List.dropWhile_cons, hd]
    simp only [Prod.mk.injEq] at this
    simp [this.1, this.2]

theorem stripTensGo_pow :
    ∀ (fuel j m : Nat) (e : Int), m ≠ 0 → m % 10 ≠ 0 → j < fuel →
      stripTensGo fuel (m * 10 ^ j) e = (m, e + j) := by
  intro fuel
  induction fuel with
  | zero => intro j m e _ _ h; omega
  | succ f ih =>
    intro j m e hm h10 hj
    cases j with
    | zero =>
      rw [stripTensGo, if_neg (by simp [hm, h10])]
      simp
    | succ j' =>
      rw [stripTensGo, if_pos ⟨by positivity, by
        have : (10 : Nat) ∣ m * 10 ^ (j' + 1) := ⟨m * 10 ^ j', by ring⟩
        omega⟩]
      have hdiv : m * 10 ^ (j' + 1) / 10 = m * 10 ^ j' := by
        rw [pow_succ, ← mul_assoc]
        exact Nat.mul_div_cancel _ (by omega)
      rw [hdiv, ih j' m (e + 1) hm h10 (by omega)]
      rw [Prod.mk.injEq]
      constructor
      · rfl
      · push_cast; ring

theorem stripTens_pow (j m : Nat) (e : Int) (hm : m ≠ 0) (h10 : m % 10 ≠ 0) :
    stripTens (m * 10 ^ j) e = (m, e + j) := by
  rw [stripTens]
  refine stripTensGo_pow _ j m e hm h10 ?_
  have h1 : j < 10 ^ j := Nat.lt_pow_self (by omega) j
  have h2 : 10 ^ j ≤ m * 10 ^ j := Nat.le_mul_of_pos_left _ (by omega)
  omega

theorem stripTens_id (m : Nat) (e : Int) (hm : m ≠ 0) (h10 : m % 10 ≠ 0) :
    stripTens m e = (m, e) := by
  have := stripTens_pow 0 m e hm h10
  simpa using this

theorem isDigitCh_ne {c : Char} (h : isDigitCh c = true) :
    c ≠ '-' ∧ c ≠ '.' ∧ c ≠ 'e' ∧ c ≠ 'E' ∧ c ≠ '+' := by
  refine ⟨?_, ?_, ?_, ?_, ?_⟩ <;> (intro he; rw [he] at h; exact absurd h (by decide))

theorem numChar_of_digit {c : Char} (h : isDigitCh c = true) : numChar c = true := by
  rw [numChar, h]
  rfl

theorem stripMinus_of_digit {b : Char} (r : List Char) (h : isDigitCh b = true) :
    stripMinus (b :: r) = b :: r := by
  unfold stripMinus
  split
  · rename_i r' heq
    rw [List.cons.injEq] at heq
    exact absurd heq.1 (isDigitCh_ne h).1
  · rfl

theorem stripMinus_sign (m : Int) {b : Char} (r : List Char) (h : isDigitCh b = true) :
    stripMinus ((if m < 0 then ['-'] else []) ++ (b :: r)) = b :: r := by
  by_cases hm : m < 0
  · rw [if_pos hm]; rfl
  · rw [if_neg hm, List.nil_append]
    exact stripMinus_of_digit r h

theorem headIs_sign (m : Int) {b : Char} (r : List Char) (h : isDigitCh b = true) :
    headIs ((if m < 0 then ['-'] else []) ++ (b :: r)) '-' = decide (m < 0) := by
  by_cases hm : m < 0
  · rw [if_pos hm]
    simp [headIs, hm]
  · rw [if_neg hm, List.nil_append, headIs]
    simp [hm, (isDigitCh_ne h).1]

theorem spanDigits_all (body : List Char) (h : ∀ c ∈ body, isDigitCh c = true) :
    spanDigits body = (body, []) := by
  have := spanDigits_split body [] h (by simp)
  simpa using this

theorem natAbs_sign (m : Int) :
    (if decide (m < 0) = true then -(m.natAbs : Int) else (m.natAbs : Int)) = m := by
  by_cases hneg : m < 0
  · rw [if_pos (by simpa using hneg)]
    omega
  · rw [if_neg (by simpa using hneg)]
    omega

theorem expOk_tail (ex : Int) :
    expOk ('e' :: ((if ex < 0 then ['-'] else ['+']) ++ natDigits ex.natAbs)) = true := by
  have hspan := spanDigits_all (natDigits ex.natAbs) (natDigits_all_digit _)
  have hne := natDigits_ne_nil ex.natAbs
  by_cases hex : ex < 0
  · rw [if_pos hex]
    show (!(spanDigits (natDigits ex.natAbs)).1.isEmpty &&
      (spanDigits (natDigits ex.natAbs)).2.isEmpty) = true
    rw [hspan]
    simp only [List.isEmpty_nil, Bool.and_true]
    cases h : natDigits ex.natAbs with
    | nil => exact absurd h hne
    | cons a b => rfl
  · rw [if_neg hex]
    show (!(spanDigits (natDigits ex.natAbs)).1.isEmpty &&
      (spanDigits (natDigits ex.natAbs)).2.isEmpty) = true
    rw [hspan]
    simp only [List.isEmpty_nil, Bool.and_true]
    cases h : natDigits ex.natAbs with
    | nil => exact absurd h hne
    | cons a b => rfl

theorem fracPart_nil : fracPart [] = ([], []) := rfl

theorem fracPart_dot (r : List Char) : fracPart ('.' :: r) = spanDigits r := rfl

theorem fracPart_e (r : List Char) : fracPart ('e' :: r) = ([], 'e' :: r) := rfl

theorem expVal_nil : expVal [] = 0 := rfl

theorem expVal_neg (t : List Char) : expVal ('e' :: ('-' :: t)) = -(digitsToNat t : Int) := rfl

theorem expVal_pos (t : List Char) : expVal ('e' :: ('+' :: t)) = (digitsToNat t : Int) := rfl

theorem numRoundtrip (m e : Int) (hm : m ≠ 0) (h10 : m.natAbs % 10 ≠ 0) :
    isNumericLit (numToString m e) = true ∧
    parseNumLit (numToString m e) = .fin m e := by
  obtain ⟨digs, hdigs⟩ : ∃ d, natDigits m.natAbs = d := ⟨_, rfl⟩
  have hdd : ∀ c ∈ digs, isDigitCh c = true := hdigs ▸ natDigits_all_digit _
  have hdv : digitsToNat digs = m.natAbs := hdigs ▸ digitsToNat_natDigits _
  have hdne : digs ≠ [] := hdigs ▸ natDigits_ne_nil _
  have hn0 : m.natAbs ≠ 0 := by omega
  simp only [numToString, hdigs]
  by_cases hb1 : ((digs.length : Int) ≤ e + (digs.length : Int) ∧
      e + (digs.length : Int) ≤ 21)
  case pos =>
    rw [if_pos hb1]
    have he : e + (digs.length : Int) - (digs.length : Int) = e := by ring
    rw [he]
    have he0 : 0 ≤ e := by omega
    obtain ⟨d0, dr, rfl⟩ : ∃ d0 dr, digs = d0 :: dr := by
      cases digs with
      | nil => exact absurd rfl hdne
      | cons a b => exact ⟨a, b, rfl⟩
    have hd0 : isDigitCh d0 = true := hdd d0 (by simp)
    have hbd : ∀ c ∈ (d0 :: dr) ++ List.replicate e.toNat '0', isDigitCh c = true := by
      intro c hc
      rcases List.mem_append.mp hc with h | h
      · exact hdd c h
      · rw [List.eq_of_mem_replicate h]; rfl
    rw [show ((d0 :: dr) ++ List.replicate e.toNat '0') =
      d0 :: (dr ++ List.replicate e.toNat '0') from rfl]
    have hsm := stripMinus_sign m (dr ++ List.replicate e.toNat '0') hd0
    have hhd := headIs_sign m (dr ++ List.replicate e.toNat '0') hd0
    have hspan : spanDigits (d0 :: (dr ++ List.replicate e.toNat '0')) =
        (d0 :: (dr ++ List.replicate e.toNat '0'), []) :=
      spanDigits_all _ (by simpa using hbd)
    constructor
    · simp only [isNumericLit, hsm, hspan]
      rfl
    · simp only [parseNumLit, hhd, hsm, hspan, fracPart_nil, expVal_nil]
      rw [List.append_nil]
      have hval : digitsToNat (d0 :: (dr ++ List.replicate e.toNat '0')) =
          m.natAbs * 10 ^ e.toNat := by
        rw [show d0 :: (dr ++ List.replicate e.toNat '0') =
          (d0 :: dr) ++ List.replicate e.toNat '0' from rfl]
        rw [digitsToNat_append, digitsToNat_replicate_zero, hdv, List.length_replicate]
        omega
      rw [hval]
      rw [if_neg (by positivity)]
      rw [show (0 : Int) - (([] : List Char).length : Int) = 0 by simp]
      rw [stripTens_pow e.toNat m.natAbs 0 hn0 h10]
      rw [natAbs_sign]
      congr 1
      omega
  case neg =>
    by_cases hb2 : (0 < e + (digs.length : Int) ∧ e + (digs.length : Int) ≤ 21)
    case pos =>
      rw [if_neg hb1, if_pos hb2]
      have hplt : e + (digs.length : Int) < (digs.length : Int) := by
        rcases not_and_or.mp hb1 with h | h
        · omega
        · exact absurd hb2.2 h
      obtain ⟨pt, hpt⟩ : ∃ pt : Nat, (pt : Int) = e + (digs.length : Int) :=
        ⟨(e + (digs.length : Int)).toNat, Int.toNat_of_nonneg (by omega)⟩
      rw [show (e + (digs.length : Int)).toNat = pt by omega]
      have hptk : pt < digs.length := by omega
      have hpt0 : 0 < pt := by omega
      obtain ⟨p', rfl⟩ : ∃ p', pt = p' + 1 := ⟨pt - 1, by omega⟩
      obtain ⟨d0, dr, rfl⟩ : ∃ d0 dr, digs = d0 :: dr := by
        cases digs with
        | nil => exact absurd rfl hdne
        | cons a b => exact ⟨a, b, rfl⟩
      simp only [List.length_cons] at hpt hptk hplt hb1 hb2
      have hd0 : isDigitCh d0 = true := hdd d0 (by simp)
      rw [List.take_succ_cons, List.drop_succ_cons]
      rw [show (d0 :: List.take p' dr) ++ '.' :: List.drop p' dr =
        d0 :: (List.take p' dr ++ '.' :: List.drop p' dr) from rfl]
      have hsm := stripMinus_sign m (List.take p' dr ++ '.' :: List.drop p' dr) hd0
      have hhd := headIs_sign m (List.take p' dr ++ '.' :: List.drop p' dr) hd0
      have htake : ∀ c ∈ d0 :: List.take p' dr, isDigitCh c = true := by
        intro c hc
        rcases List.mem_cons.mp hc with h | h
        · exact h ▸ hd0
        · exact hdd c (by simp [List.mem_of_mem_take h])
      have hdrop : ∀ c ∈ List.drop p' dr, isDigitCh c = true := by
        intro c hc
        exact hdd c (by simp [List.drop_subset _ _ hc])
      have hspan : spanDigits (d0 :: (List.take p' dr ++ '.' :: List.drop p' dr)) =
          (d0 :: List.take p' dr, '.' :: List.drop p' dr) := by
        have := spanDigits_split (d0 :: List.take p' dr) ('.' :: List.drop p' dr)
          htake (by intro c hc; simp only [List.head?, Option.some.injEq] at hc; cases hc; rfl)
        simpa using this
      have hspan2 : spanDigits (List.drop p' dr) = (List.drop p' dr, []) :=
        spanDigits_all _ hdrop
      constructor
      · simp only [isNumericLit, hsm, hspan]
        rw [hspan2]
        rfl
      · simp only [parseNumLit, hhd, hsm, hspan, fracPart_dot]
        rw [hspan2]
        simp only [expVal_nil]
        have hval : digitsToNat ((d0 :: List.take p' dr) ++ List.drop p' dr) = m.natAbs := by
          rw [show (d0 :: List.take p' dr) ++ List.drop p' dr =
            d0 :: (List.take p' dr ++ List.drop p' dr) from rfl]
          rw [List.take_append_drop]
          exact hdv
        rw [hval]
        rw [if_neg hn0]
        have hlen : ((List.drop p' dr).length : Int) = (dr.length : Int) - p' := by
          rw [List.length_drop]
          omega
        rw [stripTens_id m.natAbs _ hn0 h10]
        rw [natAbs_sign]
        congr 1
        rw [hlen]
        omega
    case neg =>
      by_cases hb3 : (-6 < e + (digs.length : Int) ∧ e + (digs.length : Int) ≤ 0)
      case pos =>
        rw [if_neg hb1, if_neg hb2, if_pos hb3]
        obtain ⟨z, hz⟩ : ∃ z : Nat, (z : Int) = -(e + (digs.length : Int)) :=
          ⟨(-(e + (digs.length : Int))).toNat, Int.toNat_of_nonneg (by omega)⟩
        rw [show (-(e + (digs.length : Int))).toNat = z by omega]
        have h0d : isDigitCh '0' = true := rfl
        have hsm := stripMinus_sign m ('.' :: (List.replicate z '0' ++ digs)) h0d
        have hhd := headIs_sign m ('.' :: (List.replicate z '0' ++ digs)) h0d
        have hrepd : ∀ c ∈ List.replicate z '0' ++ digs, isDigitCh c = true := by
          intro c hc
          rcases List.mem_append.mp hc with h | h
          · rw [List.eq_of_mem_replicate h]; rfl
          · exact hdd c h
        have hspan : spanDigits ('0' :: '.' :: (List.replicate z '0' ++ digs)) =
            (['0'], '.' :: (List.replicate z '0' ++ digs)) := by
          have := spanDigits_split ['0'] ('.' :: (List.replicate z '0' ++ digs))
            (by intro c hc; simp only [List.mem_singleton] at hc; cases hc; rfl)
            (by intro c hc; simp only [List.head?, Option.some.injEq] at hc; cases hc; rfl)
          simpa using this
        have hspan2 : spanDigits (List.replicate z '0' ++ digs) =
            (List.replicate z '0' ++ digs, []) := spanDigits_all _ hrepd
        constructor
        · simp only [isNumericLit, hsm, hspan]
          rw [hspan2]
          rfl
        · simp only [parseNumLit, hhd, hsm, hspan, fracPart_dot]
          rw [hspan2]
          simp only [expVal_nil]
          have hval : digitsToNat (['0'] ++ (List.replicate z '0' ++ digs)) = m.natAbs := by
            rw [digitsToNat_append, digitsToNat_append, digitsToNat_replicate_zero, hdv]
            have h0 : digitsToNat ['0'] = 0 := rfl
            rw [h0]
            simp
          rw [hval]
          rw [if_neg hn0]
          rw [stripTens_id m.natAbs _ hn0 h10]
          rw [natAbs_sign]
          congr 1
          simp only [List.length_append, List.length_replicate]
          omega
      case neg =>
        rw [if_neg hb1, if_neg hb2, if_neg hb3]
        cases digs with
        | nil => exact absurd rfl hdne
        | cons d0 rest =>
        cases rest with
        | nil =>
          have hd0 : isDigitCh d0 = true := hdd d0 (by simp)
          have hex0 : isDigitCh 'e' = false := rfl
          set ex : Int := e + (([d0] : List Char).length : Int) - 1 with hexdef
          rw [show ([d0] ++ 'e' :: ((if ex < 0 then ['-'] else ['+']) ++
              natDigits ex.natAbs)) =
            d0 :: ('e' :: ((if ex < 0 then ['-'] else ['+']) ++ natDigits ex.natAbs))
            from rfl]
          have hsm := stripMinus_sign m
            ('e' :: ((if ex < 0 then ['-'] else ['+']) ++ natDigits ex.natAbs)) hd0
          have hhd := headIs_sign m
            ('e' :: ((if ex < 0 then ['-'] else ['+']) ++ natDigits ex.natAbs)) hd0
          have hspan : spanDigits (d0 :: ('e' :: ((if ex < 0 then ['-'] else ['+']) ++
              natDigits ex.natAbs))) =
              ([d0], 'e' :: ((if ex < 0 then ['-'] else ['+']) ++ natDigits ex.natAbs)) := by
            have := spanDigits_split [d0]
              ('e' :: ((if ex < 0 then ['-'] else ['+']) ++ natDigits ex.natAbs))
              (by intro c hc; simp only [List.mem_singleton] at hc; cases hc; exact hd0)
              (by intro c hc; simp only [List.head?, Option.some.injEq] at hc; cases hc; rfl)
            simpa using this
          constructor
          · simp only [isNumericLit, hsm, hspan]
            exact expOk_tail ex
          · simp only [parseNumLit, hhd, hsm, hspan, fracPart_e]
            by_cases hex : ex < 0
            · rw [if_pos hex]
              simp only [List.cons_append, List.nil_append]
              rw [expVal_neg, digitsToNat_natDigits]
              rw [hdv]
              rw [if_neg hn0]
              rw [stripTens_id m.natAbs _ hn0 h10]
              rw [natAbs_sign]
              congr 1
              simp only [List.length_singleton, List.length_nil] at hexdef ⊢
              omega
            · rw [if_neg hex]
              simp only [List.cons_append, List.nil_append]
              rw [expVal_pos, digitsToNat_natDigits]
              rw [hdv]
              rw [if_neg hn0]
              rw [stripTens_id m.natAbs _ hn0 h10]
              rw [natAbs_sign]
              congr 1
              simp only [List.length_singleton, List.length_nil] at hexdef ⊢
              omega
        | cons d1 dr =>
          have hd0 : isDigitCh d0 = true := hdd d0 (by simp)
          set ex : Int := e + ((d0 :: d1 :: dr).length : Int) - 1 with hexdef
          rw [show ((d0 :: '.' :: d1 :: dr) ++ 'e' :: ((if ex < 0 then ['-'] else ['+']) ++
              natDigits ex.natAbs)) =
            d0 :: ('.' :: ((d1 :: dr) ++ 'e' :: ((if ex < 0 then ['-'] else ['+']) ++
              natDigits ex.natAbs)))
            from rfl]
          have hsm := stripMinus_sign m
            ('.' :: ((d1 :: dr) ++ 'e' :: ((if ex < 0 then ['-'] else ['+']) ++
              natDigits ex.natAbs))) hd0
          have hhd := headIs_sign m
            ('.' :: ((d1 :: dr) ++ 'e' :: ((if ex < 0 then ['-'] else ['+']) ++
              natDigits ex.natAbs))) hd0
          have hspan : spanDigits (d0 :: ('.' :: ((d1 :: dr) ++
              'e' :: ((if ex < 0 then ['-'] else ['+']) ++ natDigits ex.natAbs)))) =
              ([d0], '.' :: ((d1 :: dr) ++ 'e' :: ((if ex < 0 then ['-'] else ['+']) ++
                natDigits ex.natAbs))) := by
            have := spanDigits_split [d0]
              ('.' :: ((d1 :: dr) ++ 'e' :: ((if ex < 0 then ['-'] else ['+']) ++
                natDigits ex.natAbs)))
              (by intro c hc; simp only [List.mem_singleton] at hc; cases hc; exact hd0)
              (by intro c hc; simp only [List.head?, Option.some.injEq] at hc; cases hc; rfl)
            simpa using this
          have hspan2 : spanDigits ((d1 :: dr) ++ 'e' :: ((if ex < 0 then ['-'] else ['+']) ++
              natDigits ex.natAbs)) =
              (d1 :: dr, 'e' :: ((if ex < 0 then ['-'] else ['+']) ++
                natDigits ex.natAbs)) :=
            spanDigits_split (d1 :: dr) _
              (by intro c hc; exact hdd c (by simp [hc]))
              (by intro c hc; simp only [List.head?, Option.some.injEq] at hc; cases hc; rfl)
          constructor
          · simp only [isNumericLit, hsm, hspan]
            rw [hspan2]
            exact expOk_tail ex
          · simp only [parseNumLit, hhd, hsm, hspan, fracPart_dot]
            rw [hspan2]
            by_cases hex : ex < 0
            · rw [if_pos hex]
              simp only [List.cons_append, List.nil_append]
              rw [expVal_neg, digitsToNat_natDigits]
              have hval : digitsToNat (d0 :: d1 :: dr) = m.natAbs := hdv
              rw [hval]
              rw [if_neg hn0]
              rw [stripTens_id m.natAbs _ hn0 h10]
              rw [natAbs_sign]
              congr 1
              simp only [List.length_cons] at hexdef ⊢
              omega
            · rw [if_neg hex]
              simp only [List.cons_append, List.nil_append]
              rw [expVal_pos, digitsToNat_natDigits]
              have hval : digitsToNat (d0 :: d1 :: dr) = m.natAbs := hdv
              rw [hval]
              rw [if_neg hn0]
              rw [stripTens_id m.natAbs _ hn0 h10]
              rw [natAbs_sign]
              congr 1
              simp only [List.length_cons] at hexdef ⊢
              omega

theorem isWSb_high (c : Char) (h1 : 33 ≤ c.toNat) (h2 : c.toNat ≤ 159) :
    isWSb c = false := by
  rw [isWSb]
  simp only [Bool.or_eq_false_iff, Bool.and_eq_false_iff, decide_eq_false_iff_not]
  omega

theorem numChar_not_ws {c : Char} (h : numChar c = true) : isWSb c = false := by
  rw [numChar] at h
  simp only [Bool.or_eq_true, decide_eq_true_eq] at h
  rcases h with (((h | h) | h) | h) | h
  · rw [isDigitCh] at h
    simp only [Bool.and_eq_true, decide_eq_true_eq] at h
    exact isWSb_high c (by omega) (by omega)
  · subst h; decide
  · subst h; decide
  · subst h; decide
  · subst h; decide

theorem memGetLast : ∀ (l : List Char) (c : Char), l.getLast? = some c → c ∈ l
  | [], _, h => by simp at h
  | [a], c, h => by
      simp only [List.getLast?_singleton, Option.some.injEq] at h
      simp [h]
  | a :: b :: r, c, h => by
      rw [List.getLast?_cons_cons] at h
      exact List.mem_cons_of_mem a (memGetLast (b :: r) c h)

theorem numToString_chars (m e : Int) : ∀ c ∈ numToString m e, numChar c = true := by
  intro c hc
  obtain ⟨digs, hdigs⟩ : ∃ d, natDigits m.natAbs = d := ⟨_, rfl⟩
  have hdd : ∀ c ∈ digs, isDigitCh c = true := hdigs ▸ natDigits_all_digit _
  simp only [numToString, hdigs] at hc
  rcases List.mem_append.mp hc with h | h
  · by_cases hmn : m < 0
    · rw [if_pos hmn] at h
      simp only [List.mem_singleton] at h
      subst h; decide
    · rw [if_neg hmn] at h
      simp at h
  · split_ifs at h with hb1 hb2 hb3 hb4
    · rcases List.mem_append.mp h with h | h
      · exact numChar_of_digit (hdd c h)
      · rw [List.eq_of_mem_replicate h]; decide
    · rcases List.mem_append.mp h with h | h
      · exact numChar_of_digit (hdd c (List.mem_of_mem_take h))
      · rcases List.mem_cons.mp h with h | h
        · subst h; decide
        · exact numChar_of_digit (hdd c (List.drop_subset _ _ h))
    · rcases List.mem_cons.mp h with h | h
      · subst h; decide
      · rcases List.mem_cons.mp h with h | h
        · subst h; decide
        · rcases List.mem_append.mp h with h | h
          · rw [List.eq_of_mem_replicate h]; decide
          · exact numChar_of_digit (hdd c h)
    · rcases List.mem_append.mp h with h | h
      · cases digs with
        | nil =>
          simp only [List.mem_singleton] at h
          subst h; decide
        | cons d0 rest =>
          cases rest with
          | nil =>
            simp only [List.mem_singleton] at h
            subst h
            exact numChar_of_digit (hdd c (by simp))
          | cons d1 dr =>
            rcases List.mem_cons.mp h with h | h
            · subst h
              exact numChar_of_digit (hdd c (by simp))
            · rcases List.mem_cons.mp h with h | h
              · subst h; decide
              · exact numChar_of_digit (hdd c (by simp [h]))
      · rcases List.mem_cons.mp h with h | h
        · subst h; decide
        · rcases List.mem_append.mp h with h | h
          · simp only [List.mem_singleton] at h
            subst h; decide
          · exact numChar_of_digit (natDigits_all_digit _ c h)
    · rcases List.mem_append.mp h with h | h
      · cases digs with
        | nil =>
          simp only [List.mem_singleton] at h
          subst h; decide
        | cons d0 rest =>
          cases rest with
          | nil =>
            simp only [List.mem_singleton] at h
            subst h
            exact numChar_of_digit (hdd c (by simp))
          | cons d1 dr =>
            rcases List.mem_cons.mp h with h | h
            · subst h
              exact numChar_of_digit (hdd c (by simp))
            · rcases List.mem_cons.mp h with h | h
              · subst h; decide
              · exact numChar_of_digit (hdd c (by simp [h]))
      · rcases List.mem_cons.mp h with h | h
        · subst h; decide
        · rcases List.mem_append.mp h with h | h
          · simp only [List.mem_singleton] at h
            subst h; decide
          · exact numChar_of_digit (natDigits_all_digit _ c h)

theorem parseRun_top_num (fuel : Nat) (m e : Int) (hm : m ≠ 0)
    (h10 : m.natAbs % 10 ≠ 0) :
    parseRun (fuel + 2) .top (numToString m e) = some (.ok (.num (.fin m e))) := by
  have hch := numToString_chars m e
  have hnum := numRoundtrip m e hm h10
  have hne : numToString m e ≠ [] := by
    intro h
    have h2 := hnum.1
    rw [h] at h2
    exact absurd h2 (by decide)
  have htrim : trim (numToString m e) = numToString m e := by
    refine trim_eq_self ?_ ?_
    · intro c hc
      exact numChar_not_ws (hch c (List.mem_of_mem_head? hc))
    · intro c hc
      exact numChar_not_ws (hch c (memGetLast _ c hc))
  have hemp : (numToString m e).isEmpty = false := by
    cases h : numToString m e with
    | nil => exact absurd h hne
    | cons a b => rfl
  have hhead : ∀ q : Char, numChar q = false → headIs (numToString m e) q = false := by
    intro q hq
    cases h : headIs (numToString m e) q with
    | false => rfl
    | true =>
      have h2 := hch q (headIs_mem h)
      rw [hq] at h2
      exact Bool.noConfusion h2
  have hno : hasCh (numToString m e) '|' = false := by
    rw [hasCh_false_iff]
    intro x hx hxq
    have h2 := hch x hx
    rw [hxq] at h2
    exact absurd h2 (by decide)
  have hnl : ∀ (l : List Char) (q : Char), q ∈ l → numChar q = false →
      numToString m e ≠ l := by
    intro l q hql hq h
    have h2 := hch q (h ▸ hql)
    rw [hq] at h2
    exact Bool.noConfusion h2
  simp only [parseRun]
  simp only [htrim]
  rw [if_neg (by simp [hemp])]
  rw [if_neg (by simp [hhead '{' (by decide)])]
  rw [if_neg (by simp [hhead '[' (by decide)])]
  rw [if_neg (by simp [hno])]
  rw [if_neg (by simp [hemp])]
  rw [if_neg (hnl ['n', 'u', 'l', 'l'] 'n' (by decide) (by decide))]
  rw [if_neg (hnl ['t', 'r', 'u', 'e'] 't' (by decide) (by decide))]
  rw [if_neg (hnl ['f', 'a', 'l', 's', 'e'] 'f' (by decide) (by decide))]
  rw [if_neg (hnl ['u', 'n', 'd', 'e', 'f', 'i', 'n', 'e', 'd'] 'u'
    (by decide) (by decide))]
  rw [if_neg (hnl ['N', 'a', 'N'] 'N' (by decide) (by decide))]
  rw [if_neg (hnl ['I', 'n', 'f', 'i', 'n', 'i', 't', 'y'] 'I' (by decide) (by decide))]
  rw [if_neg (hnl ['-', 'I', 'n', 'f', 'i', 'n', 'i', 't', 'y'] 'I'
    (by decide) (by decide))]
  rw [if_neg (by simp [hhead '"' (by decide), hhead '\'' (by decide)])]
  rw [if_neg (by simp [hhead '{' (by decide)])]
  rw [if_neg (by simp [hhead '[' (by decide)])]
  rw [if_pos hnum.1]
  rw [hnum.2]

/-- C2: with the source's default options, `parse (stringify x)` returns `x`
for each scalar among `null`, `true`, `false`, `NaN`, `Infinity`, `-Infinity`,
`0` and `-0`; for every one-character string over the special characters
`: | , { } [ ] " ' \n \t`; and for every nonzero finite float, written exactly
as a normalised decimal `m * 10 ^ e` with a mantissa not divisible by ten. -/
theorem claim_C2 :
    (∀ x ∈ ([.null, .bool true, .bool false, .num .nan, .num .inf, .num .negInf,
        .num (.fin 0 0), .num .negZero] : List Value),
      roundtripDefault x = some (.ok x)) ∧
    (∀ c ∈ ([':', '|', ',', '{', '}', '[', ']', '"', '\'', '\n', '\t'] : List Char),
      roundtripDefault (.str [c]) = some (.ok (.str [c]))) ∧
    (∀ m e : Int, m ≠ 0 → m.natAbs % 10 ≠ 0 →
      roundtripDefault (.num (.fin m e)) = some (.ok (.num (.fin m e)))) := by
  refine ⟨?_, ?_, ?_⟩
  · intro x hx
    fin_cases hx <;> rfl
  · intro c hc
    fin_cases hc <;> rfl
  · intro m e hm h10
    have h := parseRun_top_num 38 m e hm h10
    calc roundtripDefault (.num (.fin m e))
        = parse 40 (numToString m e) := rfl
      _ = some (.ok (.num (.fin m e))) := h

theorem claim_C2_witness :
    (15 : Int) ≠ 0 ∧ (15 : Int).natAbs % 10 ≠ 0 ∧
    roundtripDefault (.num (.fin 15 (-1))) = some (.ok (.num (.fin 15 (-1)))) :=
  ⟨by decide, by decide, claim_C2.2.2 15 (-1) (by decide) (by decide)⟩

theorem trim_of_no_ws {s : List Char} (h : ∀ c ∈ s, isWSb c = false) : trim s = s :=
  trim_eq_self (fun c hc => h c (List.mem_of_mem_head? hc))
    (fun c hc => h c (memGetLast _ c hc))

theorem mem_joinSep (sep : Char) :
    ∀ (parts : List (List Char)) (c : Char), c ∈ joinSep sep parts →
      c = sep ∨ ∃ p ∈ parts, c ∈ p
  | [], c, h => by simp [joinSep] at h
  | [x], c, h => by
      rw [joinSep] at h
      exact Or.inr ⟨x, by simp, h⟩
  | x :: y :: r, c, h => by
      rw [joinSep] at h
      rcases List.mem_append.mp h with h | h
      · exact Or.inr ⟨x, by simp, h⟩
      · rcases List.mem_cons.mp h with h | h
        · exact Or.inl h
        · rcases mem_joinSep sep (y :: r) c h with h | ⟨p, hp, hcp⟩
          · exact Or.inl h
          · exact Or.inr ⟨p, by simp [hp], hcp⟩

theorem parseVal_fuel (s : List Char) (h1 : headIs (trim s) '{' = false)
    (h2 : headIs (trim s) '[' = false) (fuel fuel' : Nat) :
    parseRun (fuel + 1) .inVal s = parseRun (fuel' + 1) .inVal s := by
  simp only [parseRun]
  by_cases hc1 : (trim s).isEmpty = true
  case pos => rw [if_pos hc1, if_pos hc1]
  rw [if_neg hc1, if_neg hc1]
  by_cases hc2 : trim s = ['n', 'u', 'l', 'l']
  case pos => rw [if_pos hc2, if_pos hc2]
  rw [if_neg hc2, if_neg hc2]
  by_cases hc3 : trim s = ['t', 'r', 'u', 'e']
  case pos => rw [if_pos hc3, if_pos hc3]
  rw [if_neg hc3, if_neg hc3]
  by_cases hc4 : trim s = ['f', 'a', 'l', 's', 'e']
  case pos => rw [if_pos hc4, if_pos hc4]
  rw [if_neg hc4, if_neg hc4]
  by_cases hc5 : trim s = ['u', 'n', 'd', 'e', 'f', 'i', 'n', 'e', 'd']
  case pos => rw [if_pos hc5, if_pos hc5]
  rw [if_neg hc5, if_neg hc5]
  by_cases hc6 : trim s = ['N', 'a', 'N']
  case pos => rw [if_pos hc6, if_pos hc6]
  rw [if_neg hc6, if_neg hc6]
  by_cases hc7 : trim s = ['I', 'n', 'f', 'i', 'n', 'i', 't', 'y']
  case pos => rw [if_pos hc7, if_pos hc7]
  rw [if_neg hc7, if_neg hc7]
  by_cases hc8 : trim s = ['-', 'I', 'n', 'f', 'i', 'n', 'i', 't', 'y']
  case pos => rw [if_pos hc8, if_pos hc8]
  rw [if_neg hc8, if_neg hc8]
  by_cases hc9 : (headIs (trim s) '"' && lastIs (trim s) '"' ||
      (headIs (trim s) '\'' && lastIs (trim s) '\'')) = true
  case pos => rw [if_pos hc9, if_pos hc9]
  rw [if_neg hc9, if_neg hc9]
  have hb1 : ¬(headIs (trim s) '{' = true) := by simp [h1]
  rw [if_neg hb1, if_neg hb1]
  have hb2 : ¬(headIs (trim s) '[' = true) := by simp [h2]
  rw [if_neg hb2, if_neg hb2]

theorem scalarOK_spec {v : Value} (h : scalarOK v = true) :
    simpleTok (svOf v) = true ∧
    (∀ fuel d p c, strRun (fuel + 1) (.val v) d p c = some (svOf v)) ∧
    (∀ fuel, parseRun (fuel + 1) .inVal (svOf v) = some (.ok v)) := by
  rw [scalarOK] at h
  rcases hs : strRun 1 (.val v) 1 false false with _ | s
  · rw [hs] at h
    exact Bool.noConfusion h
  rw [hs] at h
  rw [Bool.and_eq_true] at h
  obtain ⟨hsimp, hmatch⟩ := h
  have hsv : svOf v = s := by rw [svOf, hs]; rfl
  rcases hp : parseRun 1 .inVal s with _ | ex
  · rw [hp] at hmatch
    exact Bool.noConfusion hmatch
  rcases ex with e | w
  · rw [hp] at hmatch
    exact Bool.noConfusion hmatch
  rw [hp] at hmatch
  dsimp only at hmatch
  obtain rfl : w = v := beqV_eq 2 w v hmatch
  have hall : ∀ c ∈ s, simpleChar c = true := by
    rw [simpleTok, Bool.and_eq_true] at hsimp
    intro c hc
    exact List.all_eq_true.mp hsimp.2 c hc
  have hws : ∀ c ∈ s, isWSb c = false := fun c hc => simpleChar_not_ws (hall c hc)
  have hts : trim s = s := trim_of_no_ws hws
  have hh1 : headIs s '{' = false := by
    cases hh : headIs s '{' with
    | false => rfl
    | true => exact absurd (hall '{' (headIs_mem hh)) (by decide)
  have hh2 : headIs s '[' = false := by
    cases hh : headIs s '[' with
    | false => rfl
    | true => exact absurd (hall '[' (headIs_mem hh)) (by decide)
  refine ⟨hsv ▸ hsimp, ?_, ?_⟩
  · rw [hsv]
    intro fuel d p c
    cases w with
    | null =>
      obtain rfl : ['n', 'u', 'l', 'l'] = s := Option.some.inj hs
      rfl
    | undef =>
      obtain rfl : ['u', 'n', 'd', 'e', 'f', 'i', 'n', 'e', 'd'] = s := Option.some.inj hs
      rfl
    | bool b =>
      cases b with
      | true =>
        obtain rfl : ['t', 'r', 'u', 'e'] = s := Option.some.inj hs
        rfl
      | false =>
        obtain rfl : ['f', 'a', 'l', 's', 'e'] = s := Option.some.inj hs
        rfl
    | num n =>
      cases n with
      | nan =>
        obtain rfl : ['N', 'a', 'N'] = s := Option.some.inj hs
        rfl
      | inf =>
        obtain rfl : ['I', 'n', 'f', 'i', 'n', 'i', 't', 'y'] = s := Option.some.inj hs
        rfl
      | negInf =>
        obtain rfl : ['-', 'I', 'n', 'f', 'i', 'n', 'i', 't', 'y'] = s :=
          Option.some.inj hs
        rfl
      | negZero =>
        obtain rfl : ['-', '0'] = s := Option.some.inj hs
        rfl
      | fin me mf =>
        obtain rfl : numToString me mf = s := Option.some.inj hs
        rfl
    | str t =>
      by_cases hq : needsQuoting t = true
      · exfalso
        have hs2 : strRun 1 (.val (.str t)) 1 false false =
            some ('"' :: (escapeString t ++ ['"'])) := by
          simp only [strRun]
          rw [if_pos hq]
        obtain rfl : '"' :: (escapeString t ++ ['"']) = s :=
          Option.some.inj (hs2.symm.trans hs)
        have hf : simpleTok ('"' :: (escapeString t ++ ['"'])) = false := rfl
        rw [hf] at hsimp
        exact Bool.noConfusion hsimp
      · have hs2 : strRun 1 (.val (.str t)) 1 false false = some t := by
          simp only [strRun]
          rw [if_neg hq]
        obtain rfl : t = s := Option.some.inj (hs2.symm.trans hs)
        simp only [strRun]
        rw [if_neg hq]
    | arr elems =>
      exfalso
      cases elems with
      | nil =>
        obtain rfl : ['[', ']'] = s := Option.some.inj hs
        exact absurd hsimp (by decide)
      | cons x xs =>
        have hs2 : strRun 1 (.val (.arr (x :: xs))) 1 false false = none := rfl
        rw [hs2] at hs
        exact Option.noConfusion hs
    | obj fields =>
      exfalso
      cases fields with
      | nil =>
        obtain rfl : ['{', '}'] = s := Option.some.inj hs
        exact absurd hsimp (by decide)
      | cons f fr =>
        obtain ⟨k, w⟩ := f
        have hs2 : strRun 1 (.val (.obj ((k, w) :: fr))) 1 false false = none := rfl
        rw [hs2] at hs
        exact Option.noConfusion hs
  · rw [hsv]
    intro fuel
    have hstep := parseVal_fuel s (by rw [hts]; exact hh1) (by rw [hts]; exact hh2) fuel 0
    exact hstep.trans hp

theorem simpleTok_all {s : List Char} (h : simpleTok s = true) :
    ∀ c ∈ s, simpleChar c = true := by
  rw [simpleTok, Bool.and_eq_true] at h
  intro c hc
  exact List.all_eq_true.mp h.2 c hc

theorem simpleTok_ne_nil {s : List Char} (h : simpleTok s = true) : s ≠ [] := by
  rw [simpleTok, Bool.and_eq_true] at h
  intro he
  rw [he] at h
  exact Bool.noConfusion h.1

theorem mid_no_ws {k sv : List Char} (hk : ∀ c ∈ k, simpleChar c = true)
    (hsv : ∀ c ∈ sv, simpleChar c = true) :
    ∀ c ∈ k ++ ':' :: sv, isWSb c = false := by
  intro c hc
  rcases List.mem_append.mp hc with h | h
  · exact simpleChar_not_ws (hk c h)
  · rcases List.mem_cons.mp h with h | h
    · subst h; rfl
    · exact simpleChar_not_ws (hsv c h)

theorem item_no_ws {k sv : List Char} (hk : ∀ c ∈ k, simpleChar c = true)
    (hsv : ∀ c ∈ sv, simpleChar c = true) :
    ∀ c ∈ ('{' :: ((k ++ ':' :: sv) ++ ['}']) : List Char), isWSb c = false := by
  intro c hc
  rcases List.mem_cons.mp hc with h | h
  · subst h; rfl
  · rcases List.mem_append.mp h with h | h
    · exact mid_no_ws hk hsv c h
    · rcases List.mem_cons.mp h with h | h
      · subst h; rfl
      · simp at h

theorem parseVal_to_obj (fuel : Nat) (r : List Char)
    (htrim : trim ('{' :: r) = '{' :: r) :
    parseRun (fuel + 1) .inVal ('{' :: r) = parseRun fuel .inObj ('{' :: r) := by
  simp only [parseRun, htrim]
  have h1 : ¬(('{' :: r).isEmpty = true) := by simp
  have h2 : ¬('{' :: r = ['n', 'u', 'l', 'l']) := by simp
  have h3 : ¬('{' :: r = ['t', 'r', 'u', 'e']) := by simp
  have h4 : ¬('{' :: r = ['f', 'a', 'l', 's', 'e']) := by simp
  have h5 : ¬('{' :: r = ['u', 'n', 'd', 'e', 'f', 'i', 'n', 'e', 'd']) := by simp
  have h6 : ¬('{' :: r = ['N', 'a', 'N']) := by simp
  have h7 : ¬('{' :: r = ['I', 'n', 'f', 'i', 'n', 'i', 't', 'y']) := by simp
  have h8 : ¬('{' :: r = ['-', 'I', 'n', 'f', 'i', 'n', 'i', 't', 'y']) := by simp
  have h9 : ¬((headIs ('{' :: r) '"' && lastIs ('{' :: r) '"' ||
      (headIs ('{' :: r) '\'' && lastIs ('{' :: r) '\'')) = true) := by
    simp [headIs]
  have h10 : headIs ('{' :: r) '{' = true := by simp [headIs]
  rw [if_neg h1, if_neg h2, if_neg h3, if_neg h4, if_neg h5, if_neg h6, if_neg h7,
    if_neg h8, if_neg h9, if_pos h10]

theorem parseObj_pipe (fuel : Nat) (mid : List Char)
    (htrim : trim ('{' :: (mid ++ ['\x7d'])) = '{' :: (mid ++ ['\x7d']))
    (htrimMid : trim mid = mid) (hmid : mid ≠ []) :
    parseRun (fuel + 1) .inObj ('{' :: (mid ++ ['\x7d'])) =
      parseRun fuel .inPipe mid := by
  simp only [parseRun, htrim]
  have h1 : headIs ('{' :: (mid ++ ['\x7d'])) '{' = true := by simp [headIs]
  have h2 : lastIs ('{' :: (mid ++ ['\x7d'])) '\x7d' = true := by
    rw [show ('{' :: (mid ++ ['\x7d'])) = ('{' :: mid) ++ ['\x7d'] from rfl]
    exact lastIs_concat _ _
  have hcond : ¬((!(headIs ('{' :: (mid ++ ['\x7d'])) '{' &&
      lastIs ('{' :: (mid ++ ['\x7d'])) '\x7d')) = true) := by
    rw [h1, h2]
    decide
  rw [if_neg hcond]
  simp only [List.drop_succ_cons, List.drop_zero, List.dropLast_concat, htrimMid]
  have hmidE : ¬(mid.isEmpty = true) := by
    cases mid with
    | nil => exact absurd rfl hmid
    | cons a b => exact Bool.noConfusion
  rw [if_neg hmidE]

theorem parsePipe_single (fuel : Nat) (k : List Char) (v : Value)
    (hk : simpleTok k = true) (hv : scalarOK v = true) :
    parseRun (fuel + 2) .inPipe (k ++ ':' :: svOf v) = some (.ok (.obj [(k, v)])) := by
  obtain ⟨hsvt, hstr, hparse⟩ := scalarOK_spec hv
  have hkall := simpleTok_all hk
  have hsvall := simpleTok_all hsvt
  have hmidws := mid_no_ws hkall hsvall
  have hnp : '|' ∉ (k ++ ':' :: svOf v) := by
    intro hmem
    rcases List.mem_append.mp hmem with h | h
    · exact absurd (hkall '|' h) (by decide)
    · rcases List.mem_cons.mp h with h | h
      · exact absurd h (by decide)
      · exact absurd (hsvall '|' h) (by decide)
  have hmne : (k ++ ':' :: svOf v) ≠ [] := by simp
  have h0 : parseRun (fuel + 2) .inPipe (k ++ ':' :: svOf v) =
      match parsePairsGo (fun t => parseRun (fuel + 1) .inVal t)
          (splitByPipe (k ++ ':' :: svOf v)) [] with
      | none => none
      | some (.error e) => some (.error e)
      | some (.ok fs) => some (.ok (.obj fs)) := rfl
  rw [h0]
  rw [splitByPipe_no_pipe _ hmne hnp]
  rw [parsePairsGo]
  have htrimMid : trim (k ++ ':' :: svOf v) = k ++ ':' :: svOf v :=
    trim_of_no_ws hmidws
  rw [htrimMid]
  have hif : ¬((k ++ ':' :: svOf v).isEmpty = true) := by
    cases hc : k ++ ':' :: svOf v with
    | nil => exact absurd hc hmne
    | cons a b => exact Bool.noConfusion
  rw [if_neg hif]
  rw [ftlc_at k (svOf v)
    (fun c hc => by
      obtain ⟨_, _, h3, h4, h5, _⟩ := simpleChar_and (hkall c hc)
      exact ⟨h4, h5, h3⟩)
    (foldDepth_nobracket
      (fun c hc => by
        obtain ⟨_, _, _, _, _, h6, h7, h8, h9, _⟩ := simpleChar_and (hkall c hc)
        exact ⟨h6, h8, h7, h9⟩) 0)]
  dsimp only
  have hdrop : (k ++ ':' :: svOf v).drop (k.length + 1) = svOf v := by
    rw [show k ++ ':' :: svOf v = (k ++ [':']) ++ svOf v by simp]
    rw [show k.length + 1 = (k ++ [':']).length by simp]
    exact List.drop_left _ _
  rw [hdrop]
  have htsv : trim (svOf v) = svOf v :=
    trim_of_no_ws (fun c hc => simpleChar_not_ws (hsvall c hc))
  rw [htsv, hparse fuel]
  rw [List.take_left]
  have htk : trim k = trim k := rfl
  rw [trim_of_no_ws (fun c hc => simpleChar_not_ws (hkall c hc))]
  rfl

theorem parseVal_obj1 (fuel : Nat) (k : List Char) (v : Value)
    (hk : simpleTok k = true) (hv : scalarOK v = true) :
    parseRun (fuel + 4) .inVal ('{' :: ((k ++ ':' :: svOf v) ++ ['\x7d'])) =
      some (.ok (.obj [(k, v)])) := by
  obtain ⟨hsvt, hstr, hparse⟩ := scalarOK_spec hv
  have hkall := simpleTok_all hk
  have hsvall := simpleTok_all hsvt
  have htrim : trim ('{' :: ((k ++ ':' :: svOf v) ++ ['\x7d'])) =
      '{' :: ((k ++ ':' :: svOf v) ++ ['\x7d']) :=
    trim_of_no_ws (item_no_ws hkall hsvall)
  have htrimMid : trim (k ++ ':' :: svOf v) = k ++ ':' :: svOf v :=
    trim_of_no_ws (mid_no_ws hkall hsvall)
  have hmidne : (k ++ ':' :: svOf v) ≠ [] := by simp
  show parseRun (fuel + 3 + 1) .inVal ('{' :: ((k ++ ':' :: svOf v) ++ ['\x7d'])) = _
  rw [parseVal_to_obj (fuel + 3) _ htrim]
  show parseRun (fuel + 2 + 1) .inObj _ = _
  rw [parseObj_pipe (fuel + 2) (k ++ ':' :: svOf v) htrim htrimMid hmidne]
  exact parsePipe_single fuel k v hk hv

theorem parseCells_objs (fuel : Nat) (ps : List (List Char × Value))
    (h : ∀ p ∈ ps, simpleTok p.1 = true ∧ scalarOK p.2 = true) :
    parseCellsGo (fun t => parseRun (fuel + 4) .inVal t)
        (ps.map (fun p => '{' :: ((p.1 ++ ':' :: svOf p.2) ++ ['\x7d']))) =
      some (.ok (ps.map (fun kv => .obj [kv]))) := by
  induction ps with
  | nil => rfl
  | cons p pr ih =>
    obtain ⟨k, v⟩ := p
    obtain ⟨hk, hv⟩ := h (k, v) (by simp)
    have hkall := simpleTok_all hk
    have hsvall := simpleTok_all (scalarOK_spec hv).1
    simp only [List.map_cons]
    rw [parseCellsGo]
    rw [trim_of_no_ws (item_no_ws hkall hsvall)]
    rw [parseVal_obj1 fuel k v hk hv]
    rw [ih (fun q hq => h q (by simp [hq]))]

theorem item_no_pipe {k sv : List Char} (hk : ∀ c ∈ k, simpleChar c = true)
    (hsv : ∀ c ∈ sv, simpleChar c = true) :
    '|' ∉ ('{' :: ((k ++ ':' :: sv) ++ ['}']) : List Char) := by
  intro hc
  rcases List.mem_cons.mp hc with h | h
  · exact absurd h (by decide)
  · rcases List.mem_append.mp h with h | h
    · rcases List.mem_append.mp h with h | h
      · exact absurd (hk '|' h) (by decide)
      · rcases List.mem_cons.mp h with h | h
        · exact absurd h (by decide)
        · exact absurd (hsv '|' h) (by decide)
    · simp at h

theorem item_cell_ok {k sv : List Char} (hk : ∀ c ∈ k, simpleChar c = true)
    (hsv : ∀ c ∈ sv, simpleChar c = true) :
    (trim ('{' :: ((k ++ ':' :: sv) ++ ['}']))).isEmpty = false ∧
    foldDepth 0 ('{' :: ((k ++ ':' :: sv) ++ ['}'])) = 0 ∧
    ∀ c ∈ ('{' :: ((k ++ ':' :: sv) ++ ['}']) : List Char),
      c ≠ '"' ∧ c ≠ '\'' ∧ c ≠ ',' := by
  refine ⟨?_, ?_, ?_⟩
  · rw [trim_of_no_ws (item_no_ws hk hsv)]
    rfl
  · rw [foldDepth_cons]
    rw [show depthUpd 0 '{' = 1 by decide]
    rw [foldDepth_append]
    have hmid : foldDepth 1 (k ++ ':' :: sv) = 1 :=
      foldDepth_nobracket (fun c hc => by
        rcases List.mem_append.mp hc with h | h
        · obtain ⟨_, _, _, _, _, h6, h7, h8, h9, _⟩ := simpleChar_and (hk c h)
          exact ⟨h6, h8, h7, h9⟩
        · rcases List.mem_cons.mp h with h | h
          · subst h
            exact ⟨by decide, by decide, by decide, by decide⟩
          · obtain ⟨_, _, _, _, _, h6, h7, h8, h9, _⟩ := simpleChar_and (hsv c h)
            exact ⟨h6, h8, h7, h9⟩) 1
    rw [hmid]
    rw [foldDepth_cons]
    rw [show depthUpd 1 '}' = 0 by decide]
    rfl
  · intro c hc
    rcases List.mem_cons.mp hc with h | h
    · subst h
      exact ⟨by decide, by decide, by decide⟩
    · rcases List.mem_append.mp h with h | h
      · rcases List.mem_append.mp h with h | h
        · obtain ⟨_, h2, _, h4, h5, _⟩ := simpleChar_and (hk c h)
          exact ⟨h4, h5, h2⟩
        · rcases List.mem_cons.mp h with h | h
          · subst h
            exact ⟨by decide, by decide, by decide⟩
          · obtain ⟨_, h2, _, h4, h5, _⟩ := simpleChar_and (hsv c h)
            exact ⟨h4, h5, h2⟩
      · simp only [List.mem_singleton] at h
        subst h
        exact ⟨by decide, by decide, by decide⟩

theorem strRun_obj1 (fuel d : Nat) (c : Bool) (k : List Char) (v : Value)
    (hv : scalarOK v = true) :
    strRun (fuel + 2) (.val (.obj [(k, v)])) d false c =
      some ('{' :: ((k ++ ':' :: svOf v) ++ ['}'])) := by
  have hstr := (scalarOK_spec hv).2.1
  have h0 : strRun (fuel + 2) (.val (.obj [(k, v)])) d false c =
      match mapFieldsGo (fun y => strRun (fuel + 1) (.val y) (d + 1) false c)
          [(k, v)] with
      | none => none
      | some pairs => some ('{' :: (joinSep '|' pairs ++ ['}'])) := rfl
  rw [h0, mapFieldsGo]
  rw [hstr fuel (d + 1) false c]
  rfl

theorem mapStr_objs (fuel d : Nat) (c : Bool) (ps : List (List Char × Value))
    (h : ∀ p ∈ ps, simpleTok p.1 = true ∧ scalarOK p.2 = true) :
    mapStrGo (fun x => strRun (fuel + 2) (.val x) d false c)
        (ps.map (fun kv => .obj [kv])) =
      some (ps.map (fun p => '{' :: ((p.1 ++ ':' :: svOf p.2) ++ ['}']))) := by
  induction ps with
  | nil => rfl
  | cons p pr ih =>
    obtain ⟨k, v⟩ := p
    simp only [List.map_cons]
    rw [mapStrGo]
    rw [strRun_obj1 fuel d c k v (h (k, v) (by simp)).2]
    rw [ih (fun q hq => h q (by simp [hq]))]

theorem isArrObjs_false (x0 : Value) (rest : List Value)
    (hdiff : ∃ x ∈ x0 :: rest, ∃ y ∈ x0 :: rest,
      sortStrs (objKeys x) ≠ sortStrs (objKeys y)) :
    isArrayOfObjects (x0 :: rest) = false := by
  rw [isArrayOfObjects]
  obtain ⟨x, hx, y, hy, hxy⟩ := hdiff
  cases hall : (x0 :: rest).all
      (fun item => decide (sortStrs (objKeys item) = sortStrs (objKeys x0))) with
  | false => simp [hall]
  | true =>
    exfalso
    rw [List.all_eq_true] at hall
    have h1 := hall x hx
    have h2 := hall y hy
    simp only [decide_eq_true_eq] at h1 h2
    exact hxy (h1.trans h2.symm)

theorem parseTop_to_arr (fuel : Nat) (r : List Char)
    (htrim : trim ('[' :: r) = '[' :: r) :
    parseRun (fuel + 1) .top ('[' :: r) = parseRun fuel .inArr ('[' :: r) := by
  simp only [parseRun, htrim]
  have h1 : ¬(('[' :: r).isEmpty = true) := by simp
  have h2 : ¬(headIs ('[' :: r) '{' = true) := by simp [headIs]
  have h3 : headIs ('[' :: r) '[' = true := by simp [headIs]
  rw [if_neg h1, if_neg h2, if_pos h3]

theorem parseArr_std (fuel : Nat) (body : List Char)
    (htrim : trim ('[' :: (body ++ [']'])) = '[' :: (body ++ [']']))
    (htrimB : trim body = body) (hne : body ≠ []) (hnp : hasCh body '|' = false) :
    parseRun (fuel + 1) .inArr ('[' :: (body ++ [']'])) =
      match parseCellsGo (fun t => parseRun fuel .inVal t) (splitArrayItems body) with
      | none => none
      | some (.error e) => some (.error e)
      | some (.ok vs) => some (.ok (.arr (vs.filter (fun v => !isUndefV v)))) := by
  simp only [parseRun, htrim]
  have h1 : headIs ('[' :: (body ++ [']'])) '[' = true := by simp [headIs]
  have h2 : lastIs ('[' :: (body ++ [']'])) ']' = true := by
    rw [show ('[' :: (body ++ [']'])) = ('[' :: body) ++ [']'] from rfl]
    exact lastIs_concat _ _
  have hcond : ¬((!(headIs ('[' :: (body ++ [']'])) '[' &&
      lastIs ('[' :: (body ++ [']'])) ']')) = true) := by
    rw [h1, h2]
    decide
  rw [if_neg hcond]
  simp only [List.drop_succ_cons, List.drop_zero, List.dropLast_concat, htrimB]
  have hbe : ¬(body.isEmpty = true) := by
    cases hb : body with
    | nil => exact absurd hb hne
    | cons a b => exact Bool.noConfusion
  rw [if_neg hbe]
  have hcc : ¬((hasCh body '|' && hasCh body ':') = true) := by
    rw [hnp, Bool.false_and]
    exact Bool.false_ne_true
  rw [if_neg hcc]


theorem items_facts (ps : List (List Char × Value))
    (h : ∀ p ∈ ps, simpleTok p.1 = true ∧ scalarOK p.2 = true) :
    (∀ c ∈ joinSep ',' (ps.map (fun p => '{' :: ((p.1 ++ ':' :: svOf p.2) ++ ['}']))),
      isWSb c = false) ∧
    '|' ∉ joinSep ',' (ps.map (fun p => '{' :: ((p.1 ++ ':' :: svOf p.2) ++ ['}']))) := by
  have hit : ∀ it ∈ ps.map (fun p => '{' :: ((p.1 ++ ':' :: svOf p.2) ++ ['}'])),
      ∃ k sv, (∀ c ∈ k, simpleChar c = true) ∧ (∀ c ∈ sv, simpleChar c = true) ∧
        it = '{' :: ((k ++ ':' :: sv) ++ ['}']) := by
    intro it hme
    obtain ⟨p, hp, rfl⟩ := List.mem_map.mp hme
    exact ⟨p.1, svOf p.2, simpleTok_all (h p hp).1,
      simpleTok_all (scalarOK_spec (h p hp).2).1, rfl⟩
  constructor
  · intro c hc
    rcases mem_joinSep ',' _ c hc with rfl | ⟨it, hi, hci⟩
    · rfl
    · obtain ⟨k, sv, hk, hsv, rfl⟩ := hit it hi
      exact item_no_ws hk hsv c hci
  · intro hc
    rcases mem_joinSep ',' _ '|' hc with h2 | ⟨it, hi, hci⟩
    · exact absurd h2 (by decide)
    · obtain ⟨k, sv, hk, hsv, rfl⟩ := hit it hi
      exact item_no_pipe hk hsv hci

theorem strRun_std_objs (fuel d : Nat) (p0 : List Char × Value)
    (pr : List (List Char × Value))
    (h : ∀ p ∈ p0 :: pr, simpleTok p.1 = true ∧ scalarOK p.2 = true)
    (hdiff : ∃ p ∈ p0 :: pr, p.1 ≠ p0.1) :
    strRun (fuel + 3) (.val (.arr ((p0 :: pr).map (fun kv => .obj [kv])))) d false true =
      some ('[' :: (joinSep ','
        ((p0 :: pr).map (fun p => '{' :: ((p.1 ++ ':' :: svOf p.2) ++ ['}']))) ++ [']'])) := by
  have h0 : strRun (fuel + 3) (.val (.arr ((p0 :: pr).map (fun kv => .obj [kv])))) d
      false true =
      (if ((p0 :: pr).map (fun kv => Value.obj [kv])).isEmpty then some ['[', ']']
       else if true && isArrayOfObjects ((p0 :: pr).map (fun kv => Value.obj [kv])) then
         strRun (fuel + 2) (.colr ((p0 :: pr).map (fun kv => Value.obj [kv]))) d false true
       else
         match mapStrGo (fun x => strRun (fuel + 2) (.val x) (d + 1) false true)
             ((p0 :: pr).map (fun kv => Value.obj [kv])) with
         | none => none
         | some items =>
           some ('[' :: (replaceChar '|' [','] (joinSep ',' items) ++ [']']))) := rfl
  rw [h0]
  have hne : ¬(((p0 :: pr).map (fun kv => Value.obj [kv])).isEmpty = true) := by simp
  rw [if_neg hne]
  have hiao : isArrayOfObjects ((p0 :: pr).map (fun kv => Value.obj [kv])) = false := by
    rw [List.map_cons]
    apply isArrObjs_false
    obtain ⟨p, hp, hpne⟩ := hdiff
    refine ⟨.obj [p], ?_, .obj [p0], List.mem_cons_self _ _, ?_⟩
    · show Value.obj [p] ∈ (p0 :: pr).map (fun kv => Value.obj [kv])
      exact List.mem_map_of_mem _ hp
    · show sortStrs (objKeys (.obj [p])) ≠ sortStrs (objKeys (.obj [p0]))
      obtain ⟨k, v⟩ := p
      obtain ⟨k0, v0⟩ := p0
      show sortStrs [k] ≠ sortStrs [k0]
      rw [show sortStrs [k] = [k] from rfl, show sortStrs [k0] = [k0] from rfl]
      intro hh
      injection hh with h1 h2
      exact hpne h1
  have hcond : ¬((true && isArrayOfObjects ((p0 :: pr).map (fun kv => Value.obj [kv]))) =
      true) := by
    rw [hiao, Bool.and_false]
    exact Bool.false_ne_true
  rw [if_neg hcond]
  rw [mapStr_objs fuel (d + 1) true (p0 :: pr) h]
  dsimp only
  obtain ⟨hbws, hbp⟩ := items_facts (p0 :: pr) h
  rw [replaceChar_id hbp]

theorem parse_std_objs (fuel : Nat) (p0 : List Char × Value)
    (pr : List (List Char × Value))
    (h : ∀ p ∈ p0 :: pr, simpleTok p.1 = true ∧ scalarOK p.2 = true) :
    parseRun (fuel + 6) .top
        ('[' :: (joinSep ','
          ((p0 :: pr).map (fun p => '{' :: ((p.1 ++ ':' :: svOf p.2) ++ ['}']))) ++
          [']'])) =
      some (.ok (.arr ((p0 :: pr).map (fun kv => .obj [kv])))) := by
  obtain ⟨hbws, hbp⟩ := items_facts (p0 :: pr) h
  have htext : trim ('[' :: (joinSep ','
      ((p0 :: pr).map (fun p => '{' :: ((p.1 ++ ':' :: svOf p.2) ++ ['}']))) ++ [']'])) =
      '[' :: (joinSep ','
        ((p0 :: pr).map (fun p => '{' :: ((p.1 ++ ':' :: svOf p.2) ++ ['}']))) ++ [']']) := by
    apply trim_of_no_ws
    intro c hc
    rcases List.mem_cons.mp hc with h2 | h2
    · subst h2; rfl
    · rcases List.mem_append.mp h2 with h2 | h2
      · exact hbws c h2
      · simp only [List.mem_singleton] at h2
        subst h2; rfl
  have htrimB : trim (joinSep ','
      ((p0 :: pr).map (fun p => '{' :: ((p.1 ++ ':' :: svOf p.2) ++ ['}'])))) =
      joinSep ',' ((p0 :: pr).map (fun p => '{' :: ((p.1 ++ ':' :: svOf p.2) ++ ['}']))) :=
    trim_of_no_ws hbws
  have hbne : joinSep ','
      ((p0 :: pr).map (fun p => '{' :: ((p.1 ++ ':' :: svOf p.2) ++ ['}']))) ≠ [] := by
    rw [List.map_cons]
    cases hmap : pr.map (fun p => '{' :: ((p.1 ++ ':' :: svOf p.2) ++ ['}'])) with
    | nil => rw [joinSep]; simp
    | cons i ir => rw [joinSep]; simp
  have hpch : hasCh (joinSep ','
      ((p0 :: pr).map (fun p => '{' :: ((p.1 ++ ':' :: svOf p.2) ++ ['}'])))) '|' =
      false :=
    (hasCh_false_iff _ _).mpr (fun x hx hxe => hbp (hxe ▸ hx))
  show parseRun (fuel + 5 + 1) .top _ = _
  rw [parseTop_to_arr (fuel + 5) _ htext]
  show parseRun (fuel + 4 + 1) .inArr _ = _
  rw [parseArr_std (fuel + 4) _ htext htrimB hbne hpch]
  have hsplit : splitArrayItems (joinSep ','
      ((p0 :: pr).map (fun p => '{' :: ((p.1 ++ ':' :: svOf p.2) ++ ['}'])))) =
      (p0 :: pr).map (fun p => '{' :: ((p.1 ++ ':' :: svOf p.2) ++ ['}'])) := by
    apply splitArrayItems_join
    intro cell hcell
    obtain ⟨p, hp, rfl⟩ := List.mem_map.mp hcell
    exact item_cell_ok (simpleTok_all (h p hp).1)
      (simpleTok_all (scalarOK_spec (h p hp).2).1)
  rw [hsplit]
  rw [parseCells_objs fuel (p0 :: pr) h]
  dsimp only
  have hfil : ∀ a ∈ (p0 :: pr).map (fun kv => Value.obj [kv]), (!isUndefV a) = true := by
    intro a ha
    obtain ⟨p, hp, rfl⟩ := List.mem_map.mp ha
    rfl
  rw [List.filter_eq_self.mpr hfil]


/-- C4 (amended): an array whose elements do not all share one sorted key list
is indeed never columnar-encoded — `isArrayOfObjects` is false, so the
serializer renders the standard bracketed comma-joined element list (with the
`|`-to-`,` replacement applied) — but the reparse of that output is only
guaranteed to return the original array under extra conditions; it does hold
when every element is a single-field object with a bare simple key and a
simple scalar value, with at least one key differing from the first. The
original claim's unconditional round-trip is refuted by `claim_C4_cex`: the
`|`-to-`,` replacement corrupts multi-field objects. -/
theorem claim_C4 :
    (∀ (x0 : Value) (rest : List Value) (fuel depth : Nat) (pretty : Bool)
        (out : List Char),
      (∃ x ∈ x0 :: rest, ∃ y ∈ x0 :: rest,
        sortStrs (objKeys x) ≠ sortStrs (objKeys y)) →
      strRun (fuel + 1) (.val (.arr (x0 :: rest))) depth pretty true = some out →
      isArrayOfObjects (x0 :: rest) = false ∧
      ∃ items, mapStrGo (fun x => strRun fuel (.val x) (depth + 1) pretty true)
          (x0 :: rest) = some items ∧
        out = '[' :: (replaceChar '|' [','] (joinSep ',' items) ++ [']'])) ∧
    (∀ (p0 : List Char × Value) (pr : List (List Char × Value)),
      (∀ p ∈ p0 :: pr, simpleTok p.1 = true ∧ scalarOK p.2 = true) →
      (∃ p ∈ p0 :: pr, p.1 ≠ p0.1) →
      roundtripDefault (.arr ((p0 :: pr).map (fun kv => .obj [kv]))) =
        some (.ok (.arr ((p0 :: pr).map (fun kv => .obj [kv]))))) := by
  constructor
  · intro x0 rest fuel depth pretty out hdiff hout
    have hiao := isArrObjs_false x0 rest hdiff
    refine ⟨hiao, ?_⟩
    rw [strRun] at hout
    have hne : ¬((x0 :: rest).isEmpty = true) := by simp
    rw [if_neg hne] at hout
    have hcond : ¬((true && isArrayOfObjects (x0 :: rest)) = true) := by
      rw [hiao, Bool.and_false]
      exact Bool.false_ne_true
    rw [if_neg hcond] at hout
    rcases hmap : mapStrGo (fun x => strRun fuel (.val x) (depth + 1) pretty true)
        (x0 :: rest) with _ | items
    · rw [hmap] at hout
      exact Option.noConfusion hout
    · rw [hmap] at hout
      exact ⟨items, rfl, (Option.some.inj hout).symm⟩
  · intro p0 pr h hdiff
    have hstr : stringify 40 (.arr ((p0 :: pr).map (fun kv => Value.obj [kv])))
        false true =
        some ('[' :: (joinSep ','
          ((p0 :: pr).map (fun p => '{' :: ((p.1 ++ ':' :: svOf p.2) ++ ['}']))) ++
          [']'])) := by
      show strRun (37 + 3)
        (.val (.arr ((p0 :: pr).map (fun kv => Value.obj [kv])))) 0 false true = _
      exact strRun_std_objs 37 0 p0 pr h hdiff
    rw [roundtripDefault, hstr]
    show parse 40 _ = _
    show parseRun (34 + 6) .top _ = _
    exact parse_std_objs 34 p0 pr h

theorem claim_C4_witness :
    (∀ p ∈ [((['a'], Value.num (.fin 1 0)) : List Char × Value),
        ((['b'], Value.num (.fin 2 0)) : List Char × Value)],
      simpleTok p.1 = true ∧ scalarOK p.2 = true) ∧
    roundtripDefault (.arr [.obj [(['a'], .num (.fin 1 0))],
        .obj [(['b'], .num (.fin 2 0))]]) =
      some (.ok (.arr [.obj [(['a'], .num (.fin 1 0))],
        .obj [(['b'], .num (.fin 2 0))]])) :=
  ⟨by decide, claim_C4.2 (['a'], .num (.fin 1 0)) [(['b'], .num (.fin 2 0))]
    (by decide) (by decide)⟩

theorem lookupA_zip (keys : List (List Char)) (hnd : keys.Nodup) :
    ∀ (vs : List Value) (j : Nat) (hj : j < keys.length)
      (hlen : keys.length ≤ vs.length),
      lookupA (keys.zip vs) (keys[j]) = vs[j]? := by
  induction keys with
  | nil =>
    intro vs j hj _
    simp at hj
  | cons k kr ih =>
    intro vs j hj hlen
    cases vs with
    | nil => simp at hlen
    | cons v vr =>
      cases j with
      | zero =>
        simp only [List.getElem_cons_zero, List.zip_cons_cons]
        rw [lookupA, if_pos rfl]
        simp
      | succ j' =>
        simp only [List.getElem_cons_succ, List.zip_cons_cons]
        rw [lookupA]
        have hj' : j' < kr.length := by
          simp only [List.length_cons] at hj
          omega
        have hne : k ≠ kr[j'] := by
          intro he
          exact (List.nodup_cons.mp hnd).1 (he ▸ List.getElem_mem hj')
        rw [if_neg hne]
        have := ih (List.nodup_cons.mp hnd).2 vr j' hj'
          (by simp only [List.length_cons] at hlen; omega)
        rw [this]
        simp

theorem assocUpd_append (acc : List (List Char × β)) (k : List Char) (v : β)
    (h : ∀ q ∈ acc, q.1 ≠ k) : assocUpd acc k v = acc ++ [(k, v)] := by
  induction acc with
  | nil => rfl
  | cons q acc ih =>
    obtain ⟨k2, v2⟩ := q
    rw [assocUpd]
    rw [if_neg (h (k2, v2) (by simp))]
    rw [ih (fun q hq => h q (by simp [hq]))]
    rfl

theorem parseCells_scalars (pv : List Char → Option (Except String Value))
    (ws : List Value) (h : ∀ w ∈ ws, scalarOK w = true)
    (hpv : ∀ w ∈ ws, pv (svOf w) = some (.ok w)) :
    parseCellsGo pv (ws.map svOf) = some (.ok ws) := by
  induction ws with
  | nil => rfl
  | cons w wr ih =>
    have hw := scalarOK_spec (h w (by simp))
    simp only [List.map_cons]
    rw [parseCellsGo]
    rw [trim_of_no_ws (fun c hc => simpleChar_not_ws (simpleTok_all hw.1 c hc))]
    rw [hpv w (by simp)]
    rw [ih (fun q hq => h q (by simp [hq])) (fun q hq => hpv q (by simp [hq]))]

theorem mapStr_rows (fuel d : Nat) (p c : Bool) (k : List Char)
    (keys : List (List Char)) (rows : List (List Value))
    (hok : ∀ vs ∈ rows, scalarOK ((lookupA (keys.zip vs) k).getD .undef) = true) :
    mapStrGo (fun row => strRun (fuel + 1) (.val (objGetD row k)) d p c)
        (rows.map (fun vs => .obj (keys.zip vs))) =
      some (rows.map (fun vs => svOf ((lookupA (keys.zip vs) k).getD .undef))) := by
  induction rows with
  | nil => rfl
  | cons vs rr ih =>
    simp only [List.map_cons]
    rw [mapStrGo]
    rw [show objGetD (.obj (keys.zip vs)) k = (lookupA (keys.zip vs) k).getD .undef
      from rfl]
    rw [(scalarOK_spec (hok vs (by simp))).2.1 fuel d p c]
    rw [ih (fun q hq => hok q (by simp [hq]))]

theorem mapCols_rows (fuel d : Nat) (ks : List (List Char))
    (keys : List (List Char)) (rows : List (List Value))
    (hok : ∀ k ∈ ks, ∀ vs ∈ rows,
      scalarOK ((lookupA (keys.zip vs) k).getD .undef) = true) :
    mapColsGo (fun v => strRun (fuel + 1) (.val v) d false false)
        (rows.map (fun vs => .obj (keys.zip vs))) ks =
      some (ks.map (fun k => k ++ ':' :: joinSep ','
        (rows.map (fun vs => svOf ((lookupA (keys.zip vs) k).getD .undef))))) := by
  induction ks with
  | nil => rfl
  | cons k kr ih =>
    rw [mapColsGo]
    rw [mapStr_rows fuel d false false k keys rows (hok k (by simp))]
    rw [ih (fun q hq => hok q (by simp [hq]))]
    rfl

theorem col_facts {k : List Char} {cells : List (List Char)}
    (hk : ∀ c ∈ k, simpleChar c = true)
    (hcells : ∀ cell ∈ cells, ∀ c ∈ cell, simpleChar c = true) :
    foldDepth 0 (k ++ ':' :: joinSep ',' cells) = 0 ∧
    (∀ c ∈ k ++ ':' :: joinSep ',' cells, c ≠ '"' ∧ c ≠ '\'' ∧ c ≠ '|') ∧
    (∀ c ∈ k ++ ':' :: joinSep ',' cells, isWSb c = false) := by
  have hmem : ∀ c ∈ k ++ ':' :: joinSep ',' cells,
      c = ':' ∨ c = ',' ∨ simpleChar c = true := by
    intro c hc
    rcases List.mem_append.mp hc with h | h
    · exact Or.inr (Or.inr (hk c h))
    · rcases List.mem_cons.mp h with h | h
      · exact Or.inl h
      · rcases mem_joinSep ',' cells c h with h | ⟨cell, hcl, hcc⟩
        · exact Or.inr (Or.inl h)
        · exact Or.inr (Or.inr (hcells cell hcl c hcc))
  refine ⟨?_, ?_, ?_⟩
  · apply foldDepth_nobracket
    intro c hc
    rcases hmem c hc with h | h | h
    · subst h
      exact ⟨by decide, by decide, by decide, by decide⟩
    · subst h
      exact ⟨by decide, by decide, by decide, by decide⟩
    · obtain ⟨_, _, _, _, _, h6, h7, h8, h9, _⟩ := simpleChar_and h
      exact ⟨h6, h8, h7, h9⟩
  · intro c hc
    rcases hmem c hc with h | h | h
    · subst h
      exact ⟨by decide, by decide, by decide⟩
    · subst h
      exact ⟨by decide, by decide, by decide⟩
    · obtain ⟨h1, _, _, h4, h5, _⟩ := simpleChar_and h
      exact ⟨h4, h5, h1⟩
  · intro c hc
    rcases hmem c hc with h | h | h
    · subst h; rfl
    · subst h; rfl
    · exact simpleChar_not_ws h

theorem isArrObjs_rows (keys : List (List Char)) (r0 : List Value)
    (rr : List (List Value))
    (hlen : ∀ vs ∈ r0 :: rr, keys.length ≤ vs.length) :
    isArrayOfObjects ((r0 :: rr).map (fun vs => .obj (keys.zip vs))) = true := by
  have h0 : isArrayOfObjects ((r0 :: rr).map (fun vs => Value.obj (keys.zip vs))) =
      (((r0 :: rr).map (fun vs => Value.obj (keys.zip vs))).all isObjV &&
       ((r0 :: rr).map (fun vs => Value.obj (keys.zip vs))).all
         (fun item => decide (sortStrs (objKeys item) =
           sortStrs (objKeys (Value.obj (keys.zip r0)))))) := rfl
  rw [h0, Bool.and_eq_true]
  constructor
  · rw [List.all_eq_true]
    intro x hx
    obtain ⟨vs, hvs, rfl⟩ := List.mem_map.mp hx
    rfl
  · rw [List.all_eq_true]
    intro x hx
    obtain ⟨vs, hvs, rfl⟩ := List.mem_map.mp hx
    have e1 : objKeys (Value.obj (keys.zip vs)) = keys :=
      List.map_fst_zip keys vs (hlen vs hvs)
    have e2 : objKeys (Value.obj (keys.zip r0)) = keys :=
      List.map_fst_zip keys r0 (hlen r0 (by simp))
    rw [e1, e2]
    simp

theorem strRun_colr_rows (fuel d : Nat) (keys : List (List Char))
    (r0 : List Value) (rr : List (List Value))
    (hlen0 : keys.length ≤ r0.length)
    (hok : ∀ k ∈ keys, ∀ vs ∈ r0 :: rr,
      scalarOK ((lookupA (keys.zip vs) k).getD .undef) = true) :
    strRun (fuel + 2) (.colr ((r0 :: rr).map (fun vs => .obj (keys.zip vs)))) d
        false true =
      some ('[' :: (joinSep '|' (keys.map (fun k => k ++ ':' :: joinSep ','
        ((r0 :: rr).map (fun vs =>
          svOf ((lookupA (keys.zip vs) k).getD .undef))))) ++ [']'])) := by
  have h0 : strRun (fuel + 2)
      (.colr ((r0 :: rr).map (fun vs => .obj (keys.zip vs)))) d false true =
      match mapColsGo (fun v => strRun (fuel + 1) (.val v) (d + 1) false false)
          ((r0 :: rr).map (fun vs => .obj (keys.zip vs)))
          (objKeys (.obj (keys.zip r0))) with
      | none => none
      | some cols => some ('[' :: (joinSep '|' cols ++ [']'])) := rfl
  rw [h0]
  rw [show objKeys (Value.obj (keys.zip r0)) = (keys.zip r0).map Prod.fst from rfl]
  rw [List.map_fst_zip keys r0 hlen0]
  rw [mapCols_rows fuel (d + 1) keys keys (r0 :: rr) hok]

theorem strRun_arr_colr (fuel d : Nat) (keys : List (List Char))
    (r0 : List Value) (rr : List (List Value))
    (hlen : ∀ vs ∈ r0 :: rr, keys.length ≤ vs.length)
    (hok : ∀ k ∈ keys, ∀ vs ∈ r0 :: rr,
      scalarOK ((lookupA (keys.zip vs) k).getD .undef) = true) :
    strRun (fuel + 3) (.val (.arr ((r0 :: rr).map (fun vs => .obj (keys.zip vs))))) d
        false true =
      some ('[' :: (joinSep '|' (keys.map (fun k => k ++ ':' :: joinSep ','
        ((r0 :: rr).map (fun vs =>
          svOf ((lookupA (keys.zip vs) k).getD .undef))))) ++ [']'])) := by
  have h0 : strRun (fuel + 3)
      (.val (.arr ((r0 :: rr).map (fun vs => .obj (keys.zip vs))))) d false true =
      (if ((r0 :: rr).map (fun vs => Value.obj (keys.zip vs))).isEmpty then
        some ['[', ']']
       else if true && isArrayOfObjects ((r0 :: rr).map (fun vs =>
           Value.obj (keys.zip vs))) then
         strRun (fuel + 2) (.colr ((r0 :: rr).map (fun vs =>
           Value.obj (keys.zip vs)))) d false true
       else
         match mapStrGo (fun x => strRun (fuel + 2) (.val x) (d + 1) false true)
             ((r0 :: rr).map (fun vs => Value.obj (keys.zip vs))) with
         | none => none
         | some items =>
           some ('[' :: (replaceChar '|' [','] (joinSep ',' items) ++ [']']))) := rfl
  rw [h0]
  have hne : ¬(((r0 :: rr).map (fun vs => Value.obj (keys.zip vs))).isEmpty = true) := by
    simp
  rw [if_neg hne]
  have hiao := isArrObjs_rows keys r0 rr hlen
  have hcond : (true && isArrayOfObjects ((r0 :: rr).map (fun vs =>
      Value.obj (keys.zip vs)))) = true := by
    rw [hiao]
    rfl
  rw [if_pos hcond]
  exact strRun_colr_rows fuel d keys r0 rr (hlen r0 (by simp)) hok

theorem parseArr_colr (fuel : Nat) (body : List Char)
    (htrim : trim ('[' :: (body ++ [']'])) = '[' :: (body ++ [']']))
    (htrimB : trim body = body) (hne : body ≠ [])
    (hpc : (hasCh body '|' && hasCh body ':') = true) :
    parseRun (fuel + 1) .inArr ('[' :: (body ++ [']'])) =
      parseRun fuel .inColr body := by
  simp only [parseRun, htrim]
  have h1 : headIs ('[' :: (body ++ [']'])) '[' = true := by simp [headIs]
  have h2 : lastIs ('[' :: (body ++ [']'])) ']' = true := by
    rw [show ('[' :: (body ++ [']'])) = ('[' :: body) ++ [']'] from rfl]
    exact lastIs_concat _ _
  have hcond : ¬((!(headIs ('[' :: (body ++ [']'])) '[' &&
      lastIs ('[' :: (body ++ [']'])) ']')) = true) := by
    rw [h1, h2]
    decide
  rw [if_neg hcond]
  simp only [List.drop_succ_cons, List.drop_zero, List.dropLast_concat, htrimB]
  have hbe : ¬(body.isEmpty = true) := by
    cases hb : body with
    | nil => exact absurd hb hne
    | cons a b => exact Bool.noConfusion
  rw [if_neg hbe]
  rw [if_pos hpc]

theorem parseCols_rows (pv : List Char → Option (Except String Value))
    (keys0 : List (List Char)) (rows : List (List Value))
    (hpv : ∀ w : Value, scalarOK w = true → pv (svOf w) = some (.ok w)) :
    ∀ (ks : List (List Char)) (acc : List (List Char × List Value)),
      ks.Nodup →
      (∀ k ∈ ks, simpleTok k = true) →
      (∀ k ∈ ks, ∀ vs ∈ rows,
        scalarOK ((lookupA (keys0.zip vs) k).getD .undef) = true) →
      (∀ k ∈ ks, ∀ q ∈ acc, q.1 ≠ k) →
      parseColsGo pv
          (ks.map (fun k => k ++ ':' :: joinSep ','
            (rows.map (fun vs => svOf ((lookupA (keys0.zip vs) k).getD .undef)))))
          acc =
        some (.ok (acc ++ ks.map (fun k =>
          (k, rows.map (fun vs => (lookupA (keys0.zip vs) k).getD .undef))))) := by
  intro ks
  induction ks with
  | nil =>
    intro acc _ _ _ _
    rw [List.map_nil, parseColsGo]
    simp
  | cons k kr ih =>
    intro acc hnd hsimp hok hfresh
    have hkall := simpleTok_all (hsimp k (by simp))
    have hcellsP : ∀ cell ∈ rows.map (fun vs =>
        svOf ((lookupA (keys0.zip vs) k).getD .undef)), ∀ c ∈ cell,
        simpleChar c = true := by
      intro cell hcl c hcc
      obtain ⟨vs, hvs, rfl⟩ := List.mem_map.mp hcl
      exact simpleTok_all (scalarOK_spec (hok k (by simp) vs hvs)).1 c hcc
    obtain ⟨hdep, hqp, hws⟩ := col_facts hkall hcellsP
    simp only [List.map_cons]
    rw [parseColsGo]
    have htcol : trim (k ++ ':' :: joinSep ','
        (rows.map (fun vs => svOf ((lookupA (keys0.zip vs) k).getD .undef)))) =
        k ++ ':' :: joinSep ','
          (rows.map (fun vs => svOf ((lookupA (keys0.zip vs) k).getD .undef))) :=
      trim_of_no_ws hws
    rw [htcol]
    have hcne : ¬((k ++ ':' :: joinSep ','
        (rows.map (fun vs => svOf ((lookupA (keys0.zip vs) k).getD .undef)))).isEmpty =
        true) := by
      cases hk2 : k with
      | nil => simp
      | cons a b => simp
    rw [if_neg hcne]
    rw [ftlc_at k _
      (fun c hc => by
        obtain ⟨_, _, h3, h4, h5, _⟩ := simpleChar_and (hkall c hc)
        exact ⟨h4, h5, h3⟩)
      (foldDepth_nobracket
        (fun c hc => by
          obtain ⟨_, _, _, _, _, h6, h7, h8, h9, _⟩ := simpleChar_and (hkall c hc)
          exact ⟨h6, h8, h7, h9⟩) 0)]
    dsimp only
    have hdrop : (k ++ ':' :: joinSep ','
        (rows.map (fun vs =>
          svOf ((lookupA (keys0.zip vs) k).getD .undef)))).drop (k.length + 1) =
        joinSep ',' (rows.map (fun vs =>
          svOf ((lookupA (keys0.zip vs) k).getD .undef))) := by
      rw [show k ++ ':' :: joinSep ',' (rows.map (fun vs =>
          svOf ((lookupA (keys0.zip vs) k).getD .undef))) =
        (k ++ [':']) ++ joinSep ',' (rows.map (fun vs =>
          svOf ((lookupA (keys0.zip vs) k).getD .undef))) by simp]
      rw [show k.length + 1 = (k ++ [':']).length by simp]
      exact List.drop_left _ _
    rw [hdrop]
    have hvws : ∀ c ∈ joinSep ',' (rows.map (fun vs =>
        svOf ((lookupA (keys0.zip vs) k).getD .undef))), isWSb c = false := by
      intro c hc
      rcases mem_joinSep ',' _ c hc with rfl | ⟨cell, hcl, hcc⟩
      · rfl
      · exact simpleChar_not_ws (hcellsP cell hcl c hcc)
    rw [trim_of_no_ws hvws]
    have hsai : splitArrayItems (joinSep ',' (rows.map (fun vs =>
        svOf ((lookupA (keys0.zip vs) k).getD .undef)))) =
        rows.map (fun vs => svOf ((lookupA (keys0.zip vs) k).getD .undef)) := by
      apply splitArrayItems_join
      intro cell hcl
      obtain ⟨vs, hvs, rfl⟩ := List.mem_map.mp hcl
      have hsv := (scalarOK_spec (hok k (by simp) vs hvs)).1
      have hsvall := simpleTok_all hsv
      refine ⟨?_, ?_, ?_⟩
      · rw [trim_of_no_ws (fun c hc => simpleChar_not_ws (hsvall c hc))]
        cases hc : svOf ((lookupA (keys0.zip vs) k).getD .undef) with
        | nil => exact absurd hc (simpleTok_ne_nil hsv)
        | cons a b => rfl
      · exact foldDepth_nobracket
          (fun c hc => by
            obtain ⟨_, _, _, _, _, h6, h7, h8, h9, _⟩ := simpleChar_and (hsvall c hc)
            exact ⟨h6, h8, h7, h9⟩) 0
      · intro c hc
        obtain ⟨_, h2, _, h4, h5, _⟩ := simpleChar_and (hsvall c hc)
        exact ⟨h4, h5, h2⟩
    rw [hsai]
    rw [show rows.map (fun vs => svOf ((lookupA (keys0.zip vs) k).getD .undef)) =
      (rows.map (fun vs => (lookupA (keys0.zip vs) k).getD .undef)).map svOf by
      rw [List.map_map]
      rfl]
    rw [parseCells_scalars pv _
      (fun w hw => by
        obtain ⟨vs, hvs, rfl⟩ := List.mem_map.mp hw
        exact hok k (by simp) vs hvs)
      (fun w hw => by
        obtain ⟨vs, hvs, rfl⟩ := List.mem_map.mp hw
        exact hpv _ (hok k (by simp) vs hvs))]
    dsimp only
    rw [List.take_left]
    rw [trim_of_no_ws (fun c hc => simpleChar_not_ws (hkall c hc))]
    rw [assocUpd_append acc k _ (fun q hq => hfresh k (by simp) q hq)]
    rw [ih (acc ++ [(k, rows.map (fun vs => (lookupA (keys0.zip vs) k).getD .undef))])
      (List.nodup_cons.mp hnd).2
      (fun q hq => hsimp q (by simp [hq]))
      (fun q hq => hok q (by simp [hq]))
      (fun k2 hk2 q hq => by
        rcases List.mem_append.mp hq with h | h
        · exact hfresh k2 (by simp [hk2]) q h
        · simp only [List.mem_singleton] at h
          subst h
          intro he
          have he2 : k = k2 := he
          exact (List.nodup_cons.mp hnd).1 (he2 ▸ hk2))]
    simp


theorem reconstruct_rows (keys : List (List Char)) (rows : List (List Value))
    (hnd : keys.Nodup) (hlen : ∀ vs ∈ rows, vs.length = keys.length) :
    (List.range rows.length).map (fun i =>
      Value.obj ((keys.map (fun k =>
        (k, rows.map (fun vs => (lookupA (keys.zip vs) k).getD .undef)))).map
          (fun kc => (kc.1, (kc.2.get? i).getD .undef)))) =
    rows.map (fun vs => Value.obj (keys.zip vs)) := by
  apply List.ext_getElem
  · simp
  · intro i h1 h2
    simp only [List.getElem_map, List.getElem_range, List.map_map]
    have hi : i < rows.length := by simpa using h1
    congr 1
    have hleni : rows[i].length = keys.length := hlen rows[i] (List.getElem_mem hi)
    apply List.ext_getElem
    · simp only [List.length_map, List.length_zip, hleni]
      simp
    · intro j hj1 hj2
      have hj : j < keys.length := by simpa using hj1
      simp only [List.getElem_map, Function.comp]
      rw [List.getElem_zip]
      refine Prod.ext rfl ?_
      show ((rows.map (fun vs =>
        (lookupA (keys.zip vs) (keys[j])).getD .undef)).get? i).getD .undef = _
      rw [List.get?_eq_getElem?, List.getElem?_map]
      rw [List.getElem?_eq_getElem hi]
      simp only [Option.map_some', Option.getD_some]
      rw [lookupA_zip keys hnd rows[i] j hj (le_of_eq hleni.symm)]
      rw [List.getElem?_eq_getElem (by rw [hleni]; exact hj)]
      simp

theorem parseColr_rows (fuel : Nat) (k0 k1 : List Char) (kt : List (List Char))
    (rows : List (List Value))
    (hnd : (k0 :: k1 :: kt).Nodup)
    (hsimp : ∀ k ∈ k0 :: k1 :: kt, simpleTok k = true)
    (hlen : ∀ vs ∈ rows, vs.length = (k0 :: k1 :: kt).length)
    (hok : ∀ k ∈ k0 :: k1 :: kt, ∀ vs ∈ rows,
      scalarOK ((lookupA ((k0 :: k1 :: kt).zip vs) k).getD .undef) = true) :
    parseRun (fuel + 4) .inColr (joinSep '|' ((k0 :: k1 :: kt).map (fun k =>
        k ++ ':' :: joinSep ',' (rows.map (fun vs =>
          svOf ((lookupA ((k0 :: k1 :: kt).zip vs) k).getD .undef)))))) =
      some (.ok (.arr (rows.map (fun vs => .obj ((k0 :: k1 :: kt).zip vs))))) := by
  have h0 : parseRun (fuel + 4) .inColr (joinSep '|' ((k0 :: k1 :: kt).map (fun k =>
      k ++ ':' :: joinSep ',' (rows.map (fun vs =>
        svOf ((lookupA ((k0 :: k1 :: kt).zip vs) k).getD .undef)))))) =
      match parseColsGo (fun t => parseRun (fuel + 3) .inVal t)
          (splitByPipe (joinSep '|' ((k0 :: k1 :: kt).map (fun k =>
            k ++ ':' :: joinSep ',' (rows.map (fun vs =>
              svOf ((lookupA ((k0 :: k1 :: kt).zip vs) k).getD .undef))))))) [] with
      | none => none
      | some (.error e) => some (.error e)
      | some (.ok cols) =>
        match cols with
        | [] => some (.ok (.arr []))
        | c0 :: _ =>
          some (.ok (.arr ((List.range c0.2.length).map (fun i =>
            .obj (cols.map (fun kc => (kc.1, (kc.2.get? i).getD .undef))))))) := rfl
  rw [h0]
  have hsbp : splitByPipe (joinSep '|' ((k0 :: k1 :: kt).map (fun k =>
      k ++ ':' :: joinSep ',' (rows.map (fun vs =>
        svOf ((lookupA ((k0 :: k1 :: kt).zip vs) k).getD .undef)))))) =
      (k0 :: k1 :: kt).map (fun k =>
        k ++ ':' :: joinSep ',' (rows.map (fun vs =>
          svOf ((lookupA ((k0 :: k1 :: kt).zip vs) k).getD .undef)))) := by
    apply splitByPipe_join
    intro col hcol
    obtain ⟨k, hk, rfl⟩ := List.mem_map.mp hcol
    have hkall := simpleTok_all (hsimp k hk)
    have hcellsP : ∀ cell ∈ rows.map (fun vs =>
        svOf ((lookupA ((k0 :: k1 :: kt).zip vs) k).getD .undef)), ∀ c ∈ cell,
        simpleChar c = true := by
      intro cell hcl c hcc
      obtain ⟨vs, hvs, rfl⟩ := List.mem_map.mp hcl
      exact simpleTok_all (scalarOK_spec (hok k hk vs hvs)).1 c hcc
    obtain ⟨hdep, hqp, hws⟩ := col_facts hkall hcellsP
    refine ⟨?_, hdep, hqp⟩
    intro he
    obtain ⟨-, h2⟩ := List.append_eq_nil.mp he
    exact List.noConfusion h2
  rw [hsbp]
  rw [parseCols_rows (fun t => parseRun (fuel + 3) .inVal t) (k0 :: k1 :: kt) rows
    (fun w hw => (scalarOK_spec hw).2.2 (fuel + 2)) (k0 :: k1 :: kt) [] hnd hsimp hok
    (by simp)]
  simp only [List.nil_append, List.map_cons]
  rw [show (rows.map (fun vs =>
      (lookupA ((k0 :: k1 :: kt).zip vs) k0).getD .undef)).length = rows.length
    from List.length_map _ _]
  have hrec := reconstruct_rows (k0 :: k1 :: kt) rows hnd hlen
  simp only [List.map_cons] at hrec
  rw [hrec]


theorem parse_colr_full (fuel : Nat) (k0 k1 : List Char) (kt : List (List Char))
    (rows : List (List Value))
    (hnd : (k0 :: k1 :: kt).Nodup)
    (hsimp : ∀ k ∈ k0 :: k1 :: kt, simpleTok k = true)
    (hlen : ∀ vs ∈ rows, vs.length = (k0 :: k1 :: kt).length)
    (hok : ∀ k ∈ k0 :: k1 :: kt, ∀ vs ∈ rows,
      scalarOK ((lookupA ((k0 :: k1 :: kt).zip vs) k).getD .undef) = true) :
    parseRun (fuel + 6) .top
        ('[' :: (joinSep '|' ((k0 :: k1 :: kt).map (fun k =>
          k ++ ':' :: joinSep ',' (rows.map (fun vs =>
            svOf ((lookupA ((k0 :: k1 :: kt).zip vs) k).getD .undef))))) ++ [']'])) =
      some (.ok (.arr (rows.map (fun vs => .obj ((k0 :: k1 :: kt).zip vs))))) := by
  have hcolP : ∀ col ∈ (k0 :: k1 :: kt).map (fun k =>
      k ++ ':' :: joinSep ',' (rows.map (fun vs =>
        svOf ((lookupA ((k0 :: k1 :: kt).zip vs) k).getD .undef)))),
      ∀ c ∈ col, isWSb c = false := by
    intro col hcol
    obtain ⟨k, hk, rfl⟩ := List.mem_map.mp hcol
    have hkall := simpleTok_all (hsimp k hk)
    have hcellsP : ∀ cell ∈ rows.map (fun vs =>
        svOf ((lookupA ((k0 :: k1 :: kt).zip vs) k).getD .undef)), ∀ c ∈ cell,
        simpleChar c = true := by
      intro cell hcl c hcc
      obtain ⟨vs, hvs, rfl⟩ := List.mem_map.mp hcl
      exact simpleTok_all (scalarOK_spec (hok k hk vs hvs)).1 c hcc
    exact (col_facts hkall hcellsP).2.2
  have hbws : ∀ c ∈ joinSep '|' ((k0 :: k1 :: kt).map (fun k =>
      k ++ ':' :: joinSep ',' (rows.map (fun vs =>
        svOf ((lookupA ((k0 :: k1 :: kt).zip vs) k).getD .undef))))),
      isWSb c = false := by
    intro c hc
    rcases mem_joinSep '|' _ c hc with rfl | ⟨col, hcl, hcc⟩
    · rfl
    · exact hcolP col hcl c hcc
  have htext : trim ('[' :: (joinSep '|' ((k0 :: k1 :: kt).map (fun k =>
      k ++ ':' :: joinSep ',' (rows.map (fun vs =>
        svOf ((lookupA ((k0 :: k1 :: kt).zip vs) k).getD .undef))))) ++ [']'])) =
      '[' :: (joinSep '|' ((k0 :: k1 :: kt).map (fun k =>
        k ++ ':' :: joinSep ',' (rows.map (fun vs =>
          svOf ((lookupA ((k0 :: k1 :: kt).zip vs) k).getD .undef))))) ++ [']']) := by
    apply trim_of_no_ws
    intro c hc
    rcases List.mem_cons.mp hc with h | h
    · subst h; rfl
    · rcases List.mem_append.mp h with h | h
      · exact hbws c h
      · simp only [List.mem_singleton] at h
        subst h; rfl
  have htrimB := trim_of_no_ws hbws
  simp only [List.map_cons] at htext htrimB hbws ⊢
  rw [show joinSep '|' ((k0 ++ ':' :: joinSep ',' (rows.map (fun vs =>
        svOf ((lookupA ((k0 :: k1 :: kt).zip vs) k0).getD .undef)))) ::
      (k1 ++ ':' :: joinSep ',' (rows.map (fun vs =>
        svOf ((lookupA ((k0 :: k1 :: kt).zip vs) k1).getD .undef)))) ::
      kt.map (fun k => k ++ ':' :: joinSep ',' (rows.map (fun vs =>
        svOf ((lookupA ((k0 :: k1 :: kt).zip vs) k).getD .undef))))) =
      (k0 ++ ':' :: joinSep ',' (rows.map (fun vs =>
        svOf ((lookupA ((k0 :: k1 :: kt).zip vs) k0).getD .undef)))) ++
      '|' :: joinSep '|' ((k1 ++ ':' :: joinSep ',' (rows.map (fun vs =>
        svOf ((lookupA ((k0 :: k1 :: kt).zip vs) k1).getD .undef)))) ::
      kt.map (fun k => k ++ ':' :: joinSep ',' (rows.map (fun vs =>
        svOf ((lookupA ((k0 :: k1 :: kt).zip vs) k).getD .undef)))))
    from rfl] at htext htrimB ⊢
  have hbne : (k0 ++ ':' :: joinSep ',' (rows.map (fun vs =>
      svOf ((lookupA ((k0 :: k1 :: kt).zip vs) k0).getD .undef)))) ++
      '|' :: joinSep '|' ((k1 ++ ':' :: joinSep ',' (rows.map (fun vs =>
        svOf ((lookupA ((k0 :: k1 :: kt).zip vs) k1).getD .undef)))) ::
      kt.map (fun k => k ++ ':' :: joinSep ',' (rows.map (fun vs =>
        svOf ((lookupA ((k0 :: k1 :: kt).zip vs) k).getD .undef))))) ≠ [] := by
    intro he
    obtain ⟨-, h2⟩ := List.append_eq_nil.mp he
    exact List.noConfusion h2
  have hpc : (hasCh ((k0 ++ ':' :: joinSep ',' (rows.map (fun vs =>
      svOf ((lookupA ((k0 :: k1 :: kt).zip vs) k0).getD .undef)))) ++
      '|' :: joinSep '|' ((k1 ++ ':' :: joinSep ',' (rows.map (fun vs =>
        svOf ((lookupA ((k0 :: k1 :: kt).zip vs) k1).getD .undef)))) ::
      kt.map (fun k => k ++ ':' :: joinSep ',' (rows.map (fun vs =>
        svOf ((lookupA ((k0 :: k1 :: kt).zip vs) k).getD .undef)))))) '|' &&
      hasCh ((k0 ++ ':' :: joinSep ',' (rows.map (fun vs =>
      svOf ((lookupA ((k0 :: k1 :: kt).zip vs) k0).getD .undef)))) ++
      '|' :: joinSep '|' ((k1 ++ ':' :: joinSep ',' (rows.map (fun vs =>
        svOf ((lookupA ((k0 :: k1 :: kt).zip vs) k1).getD .undef)))) ::
      kt.map (fun k => k ++ ':' :: joinSep ',' (rows.map (fun vs =>
        svOf ((lookupA ((k0 :: k1 :: kt).zip vs) k).getD .undef)))))) ':') = true := by
    rw [(hasCh_true_iff _ _).mpr (List.mem_append.mpr (Or.inr (by simp)))]
    rw [(hasCh_true_iff _ _).mpr (List.mem_append.mpr (Or.inl
      (List.mem_append.mpr (Or.inr (by simp)))))]
    rfl
  show parseRun (fuel + 5 + 1) .top _ = _
  rw [parseTop_to_arr (fuel + 5) _ htext]
  show parseRun (fuel + 4 + 1) .inArr _ = _
  rw [parseArr_colr (fuel + 4) _ htext htrimB hbne hpc]
  have hfin := parseColr_rows fuel k0 k1 kt rows hnd hsimp hlen hok
  simp only [List.map_cons] at hfin
  rw [show joinSep '|' ((k0 ++ ':' :: joinSep ',' (rows.map (fun vs =>
        svOf ((lookupA ((k0 :: k1 :: kt).zip vs) k0).getD .undef)))) ::
      (k1 ++ ':' :: joinSep ',' (rows.map (fun vs =>
        svOf ((lookupA ((k0 :: k1 :: kt).zip vs) k1).getD .undef)))) ::
      kt.map (fun k => k ++ ':' :: joinSep ',' (rows.map (fun vs =>
        svOf ((lookupA ((k0 :: k1 :: kt).zip vs) k).getD .undef))))) =
      (k0 ++ ':' :: joinSep ',' (rows.map (fun vs =>
        svOf ((lookupA ((k0 :: k1 :: kt).zip vs) k0).getD .undef)))) ++
      '|' :: joinSep '|' ((k1 ++ ':' :: joinSep ',' (rows.map (fun vs =>
        svOf ((lookupA ((k0 :: k1 :: kt).zip vs) k1).getD .undef)))) ::
      kt.map (fun k => k ++ ':' :: joinSep ',' (rows.map (fun vs =>
        svOf ((lookupA ((k0 :: k1 :: kt).zip vs) k).getD .undef)))))
    from rfl] at hfin
  exact hfin


/-- C1 (amended): the columnar round-trip holds for an array of objects that
all share one identical key sequence, provided the key set has at least two
distinct bare simple keys and every field value is a simple scalar. The
original unconditional claim is refuted by `claim_C1_cex`: with a single key
the columnar text contains no `|`, so the parser never dispatches to the
columnar reader and the round-trip fails. -/
theorem claim_C1 :
    ∀ (k0 k1 : List Char) (kt : List (List Char)) (r0 : List Value)
      (rr : List (List Value)),
      (k0 :: k1 :: kt).Nodup →
      (∀ k ∈ k0 :: k1 :: kt, simpleTok k = true) →
      (∀ vs ∈ r0 :: rr, vs.length = (k0 :: k1 :: kt).length) →
      (∀ vs ∈ r0 :: rr, ∀ v ∈ vs, scalarOK v = true) →
      roundtripDefault (.arr ((r0 :: rr).map (fun vs =>
          .obj ((k0 :: k1 :: kt).zip vs)))) =
        some (.ok (.arr ((r0 :: rr).map (fun vs =>
          .obj ((k0 :: k1 :: kt).zip vs))))) := by
  intro k0 k1 kt r0 rr hnd hsimp hlen hsc
  have hok : ∀ k ∈ k0 :: k1 :: kt, ∀ vs ∈ r0 :: rr,
      scalarOK ((lookupA ((k0 :: k1 :: kt).zip vs) k).getD .undef) = true := by
    intro k hk vs hvs
    obtain ⟨j, hj, rfl⟩ := List.getElem_of_mem hk
    rw [lookupA_zip (k0 :: k1 :: kt) hnd vs j hj (le_of_eq (hlen vs hvs).symm)]
    have hjv : j < vs.length := by
      rw [hlen vs hvs]
      exact hj
    rw [List.getElem?_eq_getElem hjv]
    simp only [Option.getD_some]
    exact hsc vs hvs _ (List.getElem_mem hjv)
  have hstr : stringify 40 (.arr ((r0 :: rr).map (fun vs =>
      .obj ((k0 :: k1 :: kt).zip vs)))) false true =
      some ('[' :: (joinSep '|' ((k0 :: k1 :: kt).map (fun k =>
        k ++ ':' :: joinSep ',' ((r0 :: rr).map (fun vs =>
          svOf ((lookupA ((k0 :: k1 :: kt).zip vs) k).getD .undef))))) ++ [']'])) := by
    show strRun (37 + 3) (.val (.arr ((r0 :: rr).map (fun vs =>
      .obj ((k0 :: k1 :: kt).zip vs))))) 0 false true = _
    exact strRun_arr_colr 37 0 (k0 :: k1 :: kt) r0 rr
      (fun vs hvs => le_of_eq (hlen vs hvs).symm) hok
  rw [roundtripDefault, hstr]
  show parse 40 _ = _
  show parseRun (34 + 6) .top _ = _
  exact parse_colr_full 34 k0 k1 kt (r0 :: rr) hnd hsimp hlen hok

theorem claim_C1_witness :
    ((['a'], ['b']) : List Char × List Char).1 ≠ (['a'], ['b']).2 ∧
    (∀ vs ∈ [[Value.num (.fin 1 0), Value.bool true],
        [Value.num (.fin 2 0), Value.str ['x']]], ∀ v ∈ vs, scalarOK v = true) ∧
    roundtripDefault (.arr [.obj [(['a'], .num (.fin 1 0)), (['b'], .bool true)],
        .obj [(['a'], .num (.fin 2 0)), (['b'], .str ['x'])]]) =
      some (.ok (.arr [.obj [(['a'], .num (.fin 1 0)), (['b'], .bool true)],
        .obj [(['a'], .num (.fin 2 0)), (['b'], .str ['x'])]])) :=
  ⟨by decide, by decide,
    claim_C1 ['a'] ['b'] [] [Value.num (.fin 1 0), Value.bool true]
      [[Value.num (.fin 2 0), Value.str ['x']]]
      (by decide) (by decide) (by decide) (by decide)⟩

end JDON
